import Mathlib

/-!
# Neon Maze Runner: maze generation and player movement

A shallow embedding of the core of `src/script.js`: the recursive-backtracker maze
generator (`Cell`, `gridIndex`, `removeWalls`, `generateMaze`) and the session logic
(`movePlayer`, `checkWin`, `levelComplete`, `initLevel`).

Conventions of the embedding.

* A JavaScript reference to a `Cell` object is the index of that object in
  `gameState.maze`; mutating the object is `List.modify` at that index.
* `undefined` results are `none`; an uncaught `TypeError` (property access on
  `undefined`) makes the enclosing function return `none`.
* `Math.random()` is an explicit stream of draws; `Date.now()` is an explicit argument.
* The `while (true)` loop of `generateMaze` is run with a step budget; the theorems show
  that a budget of `2 * cols * rows` iterations always reaches the `break`.
* Canvas, overlay and particle code has no effect on the modelled fields and is left out.
-/

namespace MazeGame

/-! ## Configuration -/

/-- The keys of `CONFIG` and of `progress`. -/
inductive Difficulty where
  | easy
  | medium
  | hard
deriving DecidableEq, Repr

/-- One row of the `CONFIG` table. -/
structure DifficultyConf where
  baseCols : Nat
  baseRows : Nat
  growth : Nat
deriving DecidableEq, Repr

/-- The table `CONFIG[difficulty]`. -/
def CONFIG : Difficulty → DifficultyConf
  | .easy => { baseCols := 8, baseRows := 8, growth := 1 }
  | .medium => { baseCols := 12, baseRows := 12, growth := 2 }
  | .hard => { baseCols := 15, baseRows := 15, growth := 3 }

/-- The constant `CONFIG.totalLevels`. -/
def totalLevels : Nat := 10

/-! ## Randomness -/

/-- One value returned by `Math.random()`: the fraction `num / den`, which lies in `[0, 1)`. -/
structure RandomDraw where
  num : Nat
  den : Nat
  lt : num < den

/-- The expression `Math.floor(Math.random() * n)` for the draw `u`. -/
def RandomDraw.floorMul (u : RandomDraw) (n : Nat) : Nat :=
  u.num * n / u.den

/-! ## Cells and the grid -/

/-- The class `Cell`: `walls0 .. walls3` are `walls[0] .. walls[3]`
(top, right, bottom, left). -/
structure Cell where
  col : Int
  row : Int
  walls0 : Bool
  walls1 : Bool
  walls2 : Bool
  walls3 : Bool
  visited : Bool
deriving DecidableEq, Repr

/-- The constructor `new Cell(col, row)`: all four walls present, not visited. -/
def Cell.new (col row : Int) : Cell :=
  { col := col, row := row, walls0 := true, walls1 := true, walls2 := true, walls3 := true,
    visited := false }

/-- The function `gridIndex(col, row)`: the cell object stored at `col + row * cols`,
as its index in `maze`, or `none` for `undefined`. -/
def gridIndex (cols rows : Nat) (maze : List Cell) (col row : Int) : Option Nat :=
  if col < 0 ∨ row < 0 ∨ col > (cols : Int) - 1 ∨ row > (rows : Int) - 1 then none
  else if (col + row * (cols : Int)).toNat < maze.length then
    some (col + row * (cols : Int)).toNat
  else none

/-- The statement `if (x && !x.visited) neighbors.push(x)` as the list of pushed cells. -/
def pushUnvisited (maze : List Cell) (x : Option Nat) : List Nat :=
  match x with
  | none => []
  | some i =>
    match maze[i]? with
    | none => []
    | some c => if !c.visited then [i] else []

/-- The array `neighbors` built by `checkNeighbors` for the cell object `self`. -/
def neighborsOf (cols rows : Nat) (maze : List Cell) (self : Cell) : List Nat :=
  let top := gridIndex cols rows maze self.col (self.row - 1)
  let right := gridIndex cols rows maze (self.col + 1) self.row
  let bottom := gridIndex cols rows maze self.col (self.row + 1)
  let left := gridIndex cols rows maze (self.col - 1) self.row
  pushUnvisited maze top ++ pushUnvisited maze right ++ pushUnvisited maze bottom
    ++ pushUnvisited maze left

/-- The method `Cell.checkNeighbors()`; `u` is the value `Math.random()` returns when the
method calls it (it does so only when `neighbors` is not empty). -/
def checkNeighbors (cols rows : Nat) (maze : List Cell) (self : Cell) (u : RandomDraw) :
    Option Nat :=
  let neighbors := neighborsOf cols rows maze self
  if neighbors.length > 0 then neighbors[u.floorMul neighbors.length]? else none

/-- The function `removeWalls(a, b)` on the cell objects with indices `a` and `b`.
An `undefined` argument raises a `TypeError`. -/
def removeWalls (maze : List Cell) (a b : Nat) : Option (List Cell) :=
  match maze[a]?, maze[b]? with
  | some ca, some cb =>
    let x := ca.col - cb.col
    let maze1 :=
      if x = 1 then
        (maze.modify (fun c => { c with walls3 := false }) a).modify
          (fun c => { c with walls1 := false }) b
      else if x = -1 then
        (maze.modify (fun c => { c with walls1 := false }) a).modify
          (fun c => { c with walls3 := false }) b
      else maze
    let y := ca.row - cb.row
    let maze2 :=
      if y = 1 then
        (maze1.modify (fun c => { c with walls0 := false }) a).modify
          (fun c => { c with walls2 := false }) b
      else if y = -1 then
        (maze1.modify (fun c => { c with walls2 := false }) a).modify
          (fun c => { c with walls0 := false }) b
      else maze1
    some maze2
  | _, _ => none

/-- The nested `for` loops of `generateMaze`: row by row, `new Cell(i, j)` pushed for
`i = 0 .. cols - 1`. -/
def initCells (cols rows : Nat) : List Cell :=
  (List.range rows).flatMap fun (j : Nat) =>
    (List.range cols).map fun (i : Nat) => Cell.new (i : Int) (j : Int)

/-- The variables the `while (true)` loop of `generateMaze` works on. -/
structure GenState where
  maze : List Cell
  currentCell : Nat
  stack : List Nat
deriving DecidableEq, Repr

/-- The outcome of one iteration of the `while (true)` loop. -/
inductive StepResult where
  | next (s : GenState) (drew : Bool)
  | done (maze : List Cell)
  | error
deriving DecidableEq, Repr

/-- One iteration of the `while (true)` loop of `generateMaze`. The top of `stack` is the
head of the list. -/
def genStep (cols rows : Nat) (u : RandomDraw) (s : GenState) : StepResult :=
  match s.maze[s.currentCell]? with
  | none => .error
  | some cur =>
    match checkNeighbors cols rows s.maze cur u with
    | some next =>
      let maze1 := s.maze.modify (fun c => { c with visited := true }) next
      match removeWalls maze1 s.currentCell next with
      | none => .error
      | some maze2 =>
        .next { maze := maze2, currentCell := next, stack := s.currentCell :: s.stack } true
    | none =>
      match s.stack with
      | top :: rest => .next { s with currentCell := top, stack := rest } false
      | [] => .done s.maze

/-- The `while (true)` loop of `generateMaze`, run for at most `fuel` iterations. The draw
`rnd 0` is the next value of `Math.random()`. -/
def genLoop (cols rows : Nat) : Nat → (Nat → RandomDraw) → GenState → Option (List Cell)
  | 0, _, _ => none
  | fuel + 1, rnd, s =>
    match genStep cols rows (rnd 0) s with
    | .error => none
    | .done maze => some maze
    | .next s1 drew => genLoop cols rows fuel (if drew then fun k => rnd (k + 1) else rnd) s1

/-- The function `generateMaze()`: the value left in `gameState.maze`, or `none` when a
`TypeError` is raised or the loop has not finished after `fuel` iterations. -/
def generateMaze (cols rows : Nat) (rnd : Nat → RandomDraw) (fuel : Nat) : Option (List Cell) :=
  let maze := initCells cols rows
  match maze[0]? with
  | none => none
  | some _ =>
    genLoop cols rows fuel rnd
      { maze := maze.modify (fun c => { c with visited := true }) 0, currentCell := 0,
        stack := [] }

/-! ## Session state -/

/-- A `{ col, row }` object: `gameState.player` and `gameState.goal`. -/
structure Pos where
  col : Int
  row : Int
deriving DecidableEq, Repr

/-- The object `progress`: the highest unlocked level of each difficulty. -/
structure Progress where
  easy : Nat
  medium : Nat
  hard : Nat
deriving DecidableEq, Repr

/-- The lookup `progress[difficulty]`. -/
def Progress.get (p : Progress) : Difficulty → Nat
  | .easy => p.easy
  | .medium => p.medium
  | .hard => p.hard

/-- The assignment `progress[difficulty] = v`. -/
def Progress.set (p : Progress) (d : Difficulty) (v : Nat) : Progress :=
  match d with
  | .easy => { p with easy := v }
  | .medium => { p with medium := v }
  | .hard => { p with hard := v }

/-- The fields of `gameState` that the game logic reads and writes. -/
structure GameState where
  difficulty : Difficulty
  level : Nat
  score : Int
  startTime : Int
  isPlaying : Bool
  cols : Nat
  rows : Nat
  maze : List Cell
  player : Pos
  goal : Pos
deriving DecidableEq, Repr

/-- The two mutable globals of the script: `gameState` and `progress`. -/
structure World where
  gameState : GameState
  progress : Progress
deriving DecidableEq, Repr

/-- The local `levelScore` of `levelComplete`, with `now` the value of `Date.now()`. -/
def levelScore (level : Nat) (startTime now : Int) : Int :=
  let elapsed := (now - startTime) / 1000
  let baseScore := 100 * (level : Int)
  let timeBonus := max 0 (300 - elapsed * 5)
  baseScore + timeBonus

/-- The function `levelComplete()`, with `now` the value of `Date.now()`. -/
def levelComplete (now : Int) (w : World) : World :=
  let g := w.gameState
  let currentUnlocked := w.progress.get g.difficulty
  { gameState :=
      { g with isPlaying := false, score := g.score + levelScore g.level g.startTime now }
    progress :=
      if g.level = currentUnlocked ∧ currentUnlocked < totalLevels then
        w.progress.set g.difficulty (currentUnlocked + 1)
      else w.progress }

/-- The function `checkWin()`. -/
def checkWin (now : Int) (w : World) : World :=
  if w.gameState.player.col = w.gameState.goal.col
      ∧ w.gameState.player.row = w.gameState.goal.row then
    levelComplete now w
  else w

/-- The test `!currentCell.walls[k]`, where `sel` reads `walls[k]`; `none` is the
`TypeError` raised when `currentCell` is `undefined`. -/
def wallAbsent (maze : List Cell) (currentCell : Option Nat) (sel : Cell → Bool) :
    Option Bool :=
  match currentCell with
  | none => none
  | some i =>
    match maze[i]? with
    | none => none
    | some c => some (!sel c)

/-- The value of `canMove` computed by `movePlayer(dx, dy)`. -/
def canMove (g : GameState) (dx dy : Int) : Option Bool :=
  let currentCell := gridIndex g.cols g.rows g.maze g.player.col g.player.row
  if dx = 1 then wallAbsent g.maze currentCell Cell.walls1
  else if dx = -1 then wallAbsent g.maze currentCell Cell.walls3
  else if dy = 1 then wallAbsent g.maze currentCell Cell.walls2
  else if dy = -1 then wallAbsent g.maze currentCell Cell.walls0
  else some false

/-- The function `movePlayer(dx, dy)`, with `now` the value of `Date.now()`. -/
def movePlayer (now : Int) (dx dy : Int) (w : World) : Option World :=
  if w.gameState.isPlaying = false then some w
  else
    match canMove w.gameState dx dy with
    | none => none
    | some false => some w
    | some true =>
      some (checkWin now
        { w with gameState :=
            { w.gameState with
              player :=
                { col := w.gameState.player.col + dx, row := w.gameState.player.row + dy } } })

/-- The function `initLevel()`, with `now` the value of `Date.now()` and `rnd` the values
of `Math.random()`. -/
def initLevel (now : Int) (rnd : Nat → RandomDraw) (w : World) : Option World :=
  let conf := CONFIG w.gameState.difficulty
  let cols := conf.baseCols + w.gameState.level * conf.growth
  let rows := conf.baseRows + w.gameState.level * conf.growth
  match generateMaze cols rows rnd (2 * cols * rows) with
  | none => none
  | some maze =>
    some { w with gameState :=
      { w.gameState with
        cols := cols, rows := rows, maze := maze,
        player := { col := 0, row := 0 },
        goal := { col := (cols : Int) - 1, row := (rows : Int) - 1 },
        isPlaying := true, startTime := now } }

/-- The function `startLevel(lvl)`. -/
def startLevel (now : Int) (rnd : Nat → RandomDraw) (lvl : Nat) (w : World) : Option World :=
  initLevel now rnd { w with gameState := { w.gameState with level := lvl } }

/-- One call `movePlayer(dx, dy)` made when `Date.now()` is `now`. -/
structure MoveCall where
  now : Int
  dx : Int
  dy : Int
deriving DecidableEq, Repr

/-- A sequence of `movePlayer` calls, in order. -/
def runMoves : List MoveCall → World → Option World
  | [], w => some w
  | m :: ms, w =>
    match movePlayer m.now m.dx m.dy w with
    | none => none
    | some w1 => runMoves ms w1

/-! ## Vocabulary of the proofs -/

/-- The four sides of a cell, in the order of the `walls` array: `top` is `walls[0]`,
`right` is `walls[1]`, `bottom` is `walls[2]`, `left` is `walls[3]`. -/
inductive Side where
  | top
  | right
  | bottom
  | left
deriving DecidableEq, Repr

/-- The side of the neighbouring cell that faces this side. -/
def Side.opp : Side → Side
  | .top => .bottom
  | .right => .left
  | .bottom => .top
  | .left => .right

/-- The column offset of the neighbour on this side. -/
def Side.dx : Side → Int
  | .right => 1
  | .left => -1
  | _ => 0

/-- The row offset of the neighbour on this side. -/
def Side.dy : Side → Int
  | .bottom => 1
  | .top => -1
  | _ => 0

/-- The flag `walls[k]` of a cell, addressed by side. -/
def Cell.wall (c : Cell) : Side → Bool
  | .top => c.walls0
  | .right => c.walls1
  | .bottom => c.walls2
  | .left => c.walls3

/-- The index, in a row-major grid of `n` cells with `cols` columns, of the neighbour of
cell `i` on side `k`, when that neighbour is inside the grid. -/
def nb (cols n : Nat) (i : Nat) : Side → Option Nat
  | .top => if cols ≤ i then some (i - cols) else none
  | .right => if i % cols + 1 < cols then some (i + 1) else none
  | .bottom => if i + cols < n then some (i + cols) else none
  | .left => if 1 ≤ i % cols then some (i - 1) else none

/-- The grid is row-major: `cols * rows` cells, and the cell at index `i` carries the
coordinates `(i % cols, i / cols)`. -/
structure Shape (cols rows : Nat) (maze : List Cell) : Prop where
  len : maze.length = cols * rows
  coord : ∀ (i : Nat) (c : Cell), maze[i]? = some c →
    c.col = ((i % cols : Nat) : Int) ∧ c.row = ((i / cols : Nat) : Int)

/-- The effect on the grid of one loop iteration that moves from `cur` to its unvisited
neighbour `next` on side `k`: `next` becomes visited and the two facing walls are removed;
nothing else changes. -/
structure MazeUpd (maze maze' : List Cell) (cur next : Nat) (k : Side) : Prop where
  len : maze'.length = maze.length
  get : ∀ (i : Nat) (a : Cell), maze[i]? = some a → ∃ a' : Cell, maze'[i]? = some a' ∧ a'.col = a.col ∧ a'.row = a.row ∧
    a'.visited = (a.visited || decide (i = next)) ∧
    ∀ s, a'.wall s = (a.wall s && !decide ((i = cur ∧ s = k) ∨ (i = next ∧ s = k.opp)))

/-- The indices of the cells of `maze` that satisfy `p`. -/
def idxSet (maze : List Cell) (p : Cell → Bool) : Finset Nat :=
  (Finset.range maze.length).filter fun i => maze[i]?.map p = some true

/-- Cell `j` is the neighbour of cell `i` on some side whose wall is absent in cell `i`. -/
def OpenStep (cols rows : Nat) (maze : List Cell) (i j : Nat) : Prop :=
  ∃ k a, maze[i]? = some a ∧ nb cols (cols * rows) i k = some j ∧ a.wall k = false

/-- The graph on cell indices whose edges are the removed walls. -/
def cellGraph (cols rows : Nat) (maze : List Cell) : SimpleGraph Nat :=
  SimpleGraph.fromRel (OpenStep cols rows maze)

/-- The loop invariant of `generateMaze`. -/
structure GenInv (cols rows : Nat) (s : GenState) : Prop where
  shape : Shape cols rows s.maze
  cur_vis : ∃ a : Cell, s.maze[s.currentCell]? = some a ∧ a.visited = true
  stack_vis : ∀ i ∈ s.stack, ∃ a : Cell, s.maze[i]? = some a ∧ a.visited = true
  root_vis : ∃ a : Cell, s.maze[0]? = some a ∧ a.visited = true
  sym : ∀ (i j : Nat) (k : Side) (a b : Cell), s.maze[i]? = some a → s.maze[j]? = some b →
    nb cols (cols * rows) i k = some j → a.wall k = b.wall k.opp
  border : ∀ (i : Nat) (k : Side) (a : Cell), s.maze[i]? = some a → nb cols (cols * rows) i k = none → a.wall k = true
  fresh : ∀ (i : Nat) (a : Cell), s.maze[i]? = some a → a.visited = false → ∀ k, a.wall k = true
  conn : ∀ (i : Nat) (a : Cell), s.maze[i]? = some a → a.visited = true →
    Relation.ReflTransGen (OpenStep cols rows s.maze) 0 i
  closed : ∀ (i : Nat) (a : Cell), s.maze[i]? = some a → a.visited = true → i ≠ s.currentCell → i ∉ s.stack →
    ∀ (k : Side) (j : Nat) (b : Cell), nb cols (cols * rows) i k = some j →
      s.maze[j]? = some b → b.visited = true
  count : (idxSet s.maze fun a => !a.wall .right).card
      + (idxSet s.maze fun a => !a.wall .bottom).card + 1 = (idxSet s.maze Cell.visited).card
  acyclic : (cellGraph cols rows s.maze).IsAcyclic

/-- What the loop invariant gives once the loop has stopped: every cell is visited, the
removed walls form a spanning tree of the grid. -/
structure MazeDone (cols rows : Nat) (maze : List Cell) : Prop where
  shape : Shape cols rows maze
  sym : ∀ (i j : Nat) (k : Side) (a b : Cell), maze[i]? = some a → maze[j]? = some b →
    nb cols (cols * rows) i k = some j → a.wall k = b.wall k.opp
  border : ∀ (i : Nat) (k : Side) (a : Cell), maze[i]? = some a →
    nb cols (cols * rows) i k = none → a.wall k = true
  visited : ∀ (i : Nat) (a : Cell), maze[i]? = some a → a.visited = true
  conn : ∀ i, i < cols * rows → Relation.ReflTransGen (OpenStep cols rows maze) 0 i
  count : (idxSet maze fun a => !a.wall .right).card
      + (idxSet maze fun a => !a.wall .bottom).card + 1 = cols * rows
  acyclic : (cellGraph cols rows maze).IsAcyclic

/-! ## The properties of the generated maze, by cell coordinates -/

/-- The cell object `gridIndex(col, row)`, or `none` for `undefined`. -/
def cellAt (cols rows : Nat) (maze : List Cell) (col row : Int) : Option Cell :=
  match gridIndex cols rows maze col row with
  | none => none
  | some i => maze[i]?

/-- Wall symmetry: for every pair of horizontally or vertically adjacent cells of the grid,
the wall between them is absent in one cell exactly when it is absent in the other. -/
def WallSymmetry (cols rows : Nat) (maze : List Cell) : Prop :=
  ∀ c r : Int, 0 ≤ c → c < cols → 0 ≤ r → r < rows →
    (c + 1 < cols → ∃ a b : Cell, cellAt cols rows maze c r = some a ∧
      cellAt cols rows maze (c + 1) r = some b ∧ (a.walls1 = false ↔ b.walls3 = false)) ∧
    (r + 1 < rows → ∃ a b : Cell, cellAt cols rows maze c r = some a ∧
      cellAt cols rows maze c (r + 1) = some b ∧ (a.walls2 = false ↔ b.walls0 = false))

/-- One step of a path through the maze: from the cell at `p` to the adjacent cell at `q`,
both inside the grid, across a wall that is absent in both cells. -/
def Crossing (cols rows : Nat) (maze : List Cell) (p q : Pos) : Prop :=
  ∃ (k : Side) (a b : Cell), cellAt cols rows maze p.col p.row = some a ∧
    cellAt cols rows maze q.col q.row = some b ∧
    q.col = p.col + k.dx ∧ q.row = p.row + k.dy ∧ a.wall k = false ∧ b.wall k.opp = false

/-- The shared wall between cell `(c, r)` and its right neighbour is open (absent in at
least one of the two cells); `false` when there is no right neighbour. -/
def rightOpen (cols rows : Nat) (maze : List Cell) (c r : Nat) : Bool :=
  match cellAt cols rows maze (c : Int) (r : Int), cellAt cols rows maze ((c : Int) + 1) (r : Int) with
  | some a, some b => !a.walls1 || !b.walls3
  | _, _ => false

/-- The shared wall between cell `(c, r)` and its bottom neighbour is open (absent in at
least one of the two cells); `false` when there is no bottom neighbour. -/
def bottomOpen (cols rows : Nat) (maze : List Cell) (c r : Nat) : Bool :=
  match cellAt cols rows maze (c : Int) (r : Int), cellAt cols rows maze (c : Int) ((r : Int) + 1) with
  | some a, some b => !a.walls2 || !b.walls0
  | _, _ => false

/-- The number of pairs of adjacent cells whose shared wall is open. Each pair is counted
once, at its left cell or at its top cell. -/
def openPairs (cols rows : Nat) (maze : List Cell) : Nat :=
  ((Finset.range cols ×ˢ Finset.range rows).filter
      fun p => rightOpen cols rows maze p.1 p.2 = true).card
    + ((Finset.range cols ×ˢ Finset.range rows).filter
      fun p => bottomOpen cols rows maze p.1 p.2 = true).card

/-- Cells `p` and `q` of the grid are adjacent on side `k` of `p` and the wall between
them is absent in at least one of the two. -/
def Passage (cols rows : Nat) (maze : List Cell) (p q : Fin cols × Fin rows) : Prop :=
  ∃ (k : Side) (a b : Cell),
    cellAt cols rows maze ((p.1 : Nat) : Int) ((p.2 : Nat) : Int) = some a ∧
    cellAt cols rows maze ((q.1 : Nat) : Int) ((q.2 : Nat) : Int) = some b ∧
    ((q.1 : Nat) : Int) = ((p.1 : Nat) : Int) + k.dx ∧
    ((q.2 : Nat) : Int) = ((p.2 : Nat) : Int) + k.dy ∧
    (a.wall k = false ∨ b.wall k.opp = false)

/-- The open-wall graph of the maze: the vertices are the cells `(col, row)` of the grid,
two cells are joined when they are adjacent and their shared wall is open. -/
def mazeGraph (cols rows : Nat) (maze : List Cell) : SimpleGraph (Fin cols × Fin rows) :=
  SimpleGraph.fromRel (Passage cols rows maze)

/-! ## Sessions -/

/-- The four unit directions `(dx, dy)` that the input handlers pass to `movePlayer`. -/
def unitDirections : List (Int × Int) := [(1, 0), (-1, 0), (0, 1), (0, -1)]

/-- The initial values of the globals `gameState` and `progress` (no stored progress). -/
def initialWorld : World :=
  { gameState :=
      { difficulty := .easy, level := 1, score := 0, startTime := 0, isPlaying := false,
        cols := 10, rows := 10, maze := [], player := { col := 0, row := 0 },
        goal := { col := 0, row := 0 } }
    progress := { easy := 1, medium := 1, hard := 1 } }

/-- A source of randomness in which `Math.random()` always returns `0`. -/
def zeroDraws : Nat → RandomDraw := fun _ => { num := 0, den := 1, lt := Nat.zero_lt_one }

/-- A running session on a grid of two cells side by side with the wall between them
removed: the player on the left cell, the goal on the right cell. -/
def twoCellSession : World :=
  { gameState :=
      { difficulty := .easy, level := 1, score := 0, startTime := 0, isPlaying := true,
        cols := 2, rows := 1,
        maze := [{ Cell.new 0 0 with walls1 := false, visited := true },
                 { Cell.new 1 0 with walls3 := false, visited := true }],
        player := { col := 0, row := 0 }, goal := { col := 1, row := 0 } }
    progress := { easy := 1, medium := 1, hard := 1 } }

/-- What holds of a session between `initLevel` and any later `movePlayer` call: the grid is
a finished maze and the player is on one of its cells. -/
structure SessionInv (w : World) : Prop where
  maze : MazeDone w.gameState.cols w.gameState.rows w.gameState.maze
  col_nonneg : 0 ≤ w.gameState.player.col
  col_lt : w.gameState.player.col < w.gameState.cols
  row_nonneg : 0 ≤ w.gameState.player.row
  row_lt : w.gameState.player.row < w.gameState.rows

/-! ## Index arithmetic and the neighbour lists -/

theorem mod_succ_of_lt {cols i : Nat} (h : i % cols + 1 < cols) : (i + 1) % cols = i % cols + 1 := by
  rw [Nat.add_mod, Nat.mod_eq_of_lt (by omega : 1 < cols)]
  exact Nat.mod_eq_of_lt h

theorem mod_pred_of_pos {cols i : Nat} (h : 1 ≤ i % cols) : (i - 1) % cols + 1 = i % cols ∧ 1 ≤ i := by
  have hi : 1 ≤ i := by
    rcases Nat.eq_zero_or_pos i with h0 | h0
    · subst h0; simp at h
    · exact h0
  refine ⟨?_, hi⟩
  rcases Nat.eq_zero_or_pos cols with h0 | hc
  · subst h0; simp only [Nat.mod_zero]; omega
  · have h1 := Nat.mod_add_div i cols
    have h2 : i - 1 = (i % cols - 1) + cols * (i / cols) := by omega
    rw [h2, Nat.add_mul_mod_self_left, Nat.mod_eq_of_lt]
    · omega
    · have := Nat.mod_lt i hc; omega

theorem div_facts {cols rows i : Nat} (hi : i < cols * rows) :
    i % cols < cols ∧ i / cols < rows ∧ i % cols + cols * (i / cols) = i ∧
    (cols ≤ i ↔ 1 ≤ i / cols) ∧ (i + cols < cols * rows ↔ i / cols + 1 < rows) := by
  have hc : 0 < cols := by
    rcases Nat.eq_zero_or_pos cols with h0 | h0
    · subst h0; simp at hi
    · exact h0
  have h3 := Nat.mod_add_div i cols
  have h1 := Nat.mod_lt i hc
  have h2 : i / cols < rows := by
    rw [Nat.div_lt_iff_lt_mul hc]; rw [Nat.mul_comm]; exact hi
  refine ⟨h1, h2, h3, ?_, ?_⟩
  · rw [Nat.le_div_iff_mul_le hc]; simp
  · have : (i + cols) / cols = i / cols + 1 := Nat.add_div_right i hc
    rw [← this, Nat.div_lt_iff_lt_mul hc, Nat.mul_comm]

theorem nb_lt {cols rows i : Nat} {k : Side} {j : Nat} (hi : i < cols * rows)
    (h : nb cols (cols * rows) i k = some j) : j < cols * rows := by
  obtain ⟨h1, h2, h3, h4, h5⟩ := div_facts hi
  cases k <;> simp only [nb] at h <;> split at h <;> simp at h <;> subst h
  · omega
  · have : cols * (i / cols + 1) ≤ cols * rows := Nat.mul_le_mul_left _ h2
    rw [Nat.mul_add] at this
    omega
  · assumption
  · omega

theorem nb_opp {cols rows i : Nat} {k : Side} {j : Nat} (hi : i < cols * rows)
    (h : nb cols (cols * rows) i k = some j) : nb cols (cols * rows) j k.opp = some i := by
  cases k <;> simp only [nb] at h <;> split at h <;> simp at h <;> subst h <;> simp only [nb, Side.opp]
  · rw [if_pos (by omega)]; congr 1; omega
  · rename_i hh
    rw [mod_succ_of_lt hh, if_pos (by omega)]; rfl
  · rw [if_pos (by omega)]; simp
  · rename_i hh
    obtain ⟨h1, h2⟩ := mod_pred_of_pos hh
    have := (div_facts hi).1
    rw [if_pos (by omega)]; congr 1; omega

theorem nb_ne {cols rows i : Nat} {k : Side} {j : Nat} (hi : i < cols * rows)
    (h : nb cols (cols * rows) i k = some j) : j ≠ i := by
  have hc : 0 < cols := by
    rcases Nat.eq_zero_or_pos cols with h0 | h0
    · subst h0; simp at hi
    · exact h0
  cases k <;> simp only [nb] at h <;> split at h <;> simp at h <;> subst h
  · omega
  · omega
  · omega
  · rename_i hh
    have := (mod_pred_of_pos hh).2
    omega

theorem nb_inj {cols rows i : Nat} {k k' : Side} {j : Nat} (hi : i < cols * rows)
    (h : nb cols (cols * rows) i k = some j) (h' : nb cols (cols * rows) i k' = some j) : k = k' := by
  have hc : 0 < cols := by
    rcases Nat.eq_zero_or_pos cols with h0 | h0
    · subst h0; simp at hi
    · exact h0
  have hd := div_facts hi
  cases k <;> cases k' <;> simp only [nb] at h h' <;> split at h <;> split at h' <;> simp at h h' <;> first | rfl | (exfalso; omega)

theorem pos_of_lt_mul {cols rows i : Nat} (hi : i < cols * rows) : 0 < cols := by
  rcases Nat.eq_zero_or_pos cols with h0 | h0
  · subst h0; simp at hi
  · exact h0

theorem Shape.lt_of_get {cols rows : Nat} {maze : List Cell} (hs : Shape cols rows maze)
    {i : Nat} {a : Cell} (h : maze[i]? = some a) : i < cols * rows := by
  rw [← hs.len]
  exact (List.getElem?_eq_some_iff.1 h).1

theorem Shape.get_of_lt {cols rows : Nat} {maze : List Cell} (hs : Shape cols rows maze)
    {i : Nat} (h : i < cols * rows) : ∃ a, maze[i]? = some a := by
  rw [← hs.len] at h
  exact ⟨maze[i], List.getElem?_eq_getElem h⟩

theorem gridIndex_eq_some {cols rows : Nat} {maze : List Cell} (hs : Shape cols rows maze)
    {c r : Nat} (hc : c < cols) (hr : r < rows) :
    gridIndex cols rows maze (c : Int) (r : Int) = some (c + cols * r) := by
  have hlt : c + cols * r < cols * rows := by
    have : cols * (r + 1) ≤ cols * rows := Nat.mul_le_mul_left _ hr
    rw [Nat.mul_add] at this
    omega
  have e : ((c : Int) + (r : Int) * (cols : Int)).toNat = c + cols * r := by
    have : (c : Int) + (r : Int) * (cols : Int) = ((c + cols * r : Nat) : Int) := by
      push_cast; ring
    rw [this, Int.toNat_ofNat]
  unfold gridIndex
  rw [if_neg (by omega), e, hs.len, if_pos hlt]

theorem gridIndex_eq_none {cols rows : Nat} {maze : List Cell} {c r : Int}
    (h : c < 0 ∨ r < 0 ∨ (cols : Int) ≤ c ∨ (rows : Int) ≤ r) :
    gridIndex cols rows maze c r = none := by
  unfold gridIndex
  rw [if_pos (by omega)]

theorem decomp_unique {cols c r : Nat} (hc : c < cols) :
    (c + cols * r) % cols = c ∧ (c + cols * r) / cols = r := by
  constructor
  · rw [Nat.add_mul_mod_self_left, Nat.mod_eq_of_lt hc]
  · rw [Nat.add_mul_div_left _ _ (by omega : 0 < cols), Nat.div_eq_of_lt hc, Nat.zero_add]

/-- The index neighbour, seen from the coordinates. -/

theorem nb_eq {cols rows i : Nat} (hi : i < cols * rows) (k : Side) :
    nb cols (cols * rows) i k =
      (match k with
      | .top => if 1 ≤ i / cols then some (i % cols + cols * (i / cols - 1)) else none
      | .right => if i % cols + 1 < cols then some (i % cols + 1 + cols * (i / cols)) else none
      | .bottom => if i / cols + 1 < rows then some (i % cols + cols * (i / cols + 1)) else none
      | .left => if 1 ≤ i % cols then some (i % cols - 1 + cols * (i / cols)) else none) := by
  obtain ⟨h1, h2, h3, h4, h5⟩ := div_facts hi
  cases k <;> simp only [nb]
  · by_cases h : cols ≤ i
    · rw [if_pos h, if_pos (h4.1 h)]
      congr 1
      obtain ⟨q, hq⟩ : ∃ q, i / cols = q + 1 := ⟨i / cols - 1, by have := h4.1 h; omega⟩
      rw [hq] at h3 ⊢
      rw [Nat.mul_add] at h3
      simp only [Nat.add_sub_cancel]
      omega
    · rw [if_neg h, if_neg (fun h' => h (h4.2 h'))]
  · by_cases h : i % cols + 1 < cols
    · rw [if_pos h, if_pos h]; congr 1; omega
    · rw [if_neg h, if_neg h]
  · by_cases h : i + cols < cols * rows
    · rw [if_pos h, if_pos (h5.1 h)]; congr 1; rw [Nat.mul_add]; omega
    · rw [if_neg h, if_neg (fun h' => h (h5.2 h'))]
  · by_cases h : 1 ≤ i % cols
    · rw [if_pos h, if_pos h]; congr 1; omega
    · rw [if_neg h, if_neg h]

theorem gridIndex_side {cols rows : Nat} {maze : List Cell} (hs : Shape cols rows maze)
    {i : Nat} {a : Cell} (ha : maze[i]? = some a) (k : Side) :
    gridIndex cols rows maze (a.col + k.dx) (a.row + k.dy) = nb cols (cols * rows) i k := by
  have hi := hs.lt_of_get ha
  obtain ⟨h1, h2, h3, h4, h5⟩ := div_facts hi
  obtain ⟨e1, e2⟩ := hs.coord i a ha
  rw [nb_eq hi, e1, e2]
  cases k <;> simp only [Side.dx, Side.dy, add_zero]
  · by_cases h : 1 ≤ i / cols
    · rw [if_pos h]
      have := gridIndex_eq_some hs h1 (by omega : i / cols - 1 < rows)
      rw [← this]; congr 1; omega
    · rw [if_neg h]; exact gridIndex_eq_none (by omega)
  · by_cases h : i % cols + 1 < cols
    · rw [if_pos h]
      exact_mod_cast gridIndex_eq_some hs h h2
    · rw [if_neg h]; exact gridIndex_eq_none (by omega)
  · by_cases h : i / cols + 1 < rows
    · rw [if_pos h]
      exact_mod_cast gridIndex_eq_some hs h1 h
    · rw [if_neg h]; exact gridIndex_eq_none (by omega)
  · by_cases h : 1 ≤ i % cols
    · rw [if_pos h]
      have := gridIndex_eq_some hs (by omega : i % cols - 1 < cols) h2
      rw [← this]; congr 1; omega
    · rw [if_neg h]; exact gridIndex_eq_none (by omega)

theorem nb_coord {cols rows i : Nat} {k : Side} {j : Nat} (hi : i < cols * rows)
    (h : nb cols (cols * rows) i k = some j) :
    ((j % cols : Nat) : Int) = ((i % cols : Nat) : Int) + k.dx ∧
    ((j / cols : Nat) : Int) = ((i / cols : Nat) : Int) + k.dy := by
  obtain ⟨h1, h2, h3, h4, h5⟩ := div_facts hi
  rw [nb_eq hi] at h
  cases k <;> simp only [] at h <;> split at h <;> simp at h <;> subst h <;>
    simp only [Side.dx, Side.dy]
  · obtain ⟨e1, e2⟩ := @decomp_unique cols (i % cols) (i / cols - 1) h1
    rw [e1, e2]; omega
  · rename_i hh
    obtain ⟨e1, e2⟩ := @decomp_unique cols (i % cols + 1) (i / cols) hh
    rw [e1, e2]; omega
  · obtain ⟨e1, e2⟩ := @decomp_unique cols (i % cols) (i / cols + 1) h1
    rw [e1, e2]; omega
  · obtain ⟨e1, e2⟩ := @decomp_unique cols (i % cols - 1) (i / cols) (by omega)
    rw [e1, e2]; omega

theorem mem_pushUnvisited {maze : List Cell} {o : Option Nat} {j : Nat} :
    j ∈ pushUnvisited maze o ↔ o = some j ∧ ∃ b, maze[j]? = some b ∧ b.visited = false := by
  unfold pushUnvisited
  cases o with
  | none => simp
  | some i =>
    simp only []
    cases hb : maze[i]? with
    | none =>
      simp only [List.not_mem_nil, Option.some.injEq, false_iff, not_and, not_exists]
      intro e; subst e; simp [hb]
    | some b =>
      simp only []
      by_cases hv : b.visited = true
      · simp only [hv, Bool.not_true, Bool.false_eq_true, if_false, List.not_mem_nil,
          Option.some.injEq, false_iff, not_and, not_exists]
        intro e; subst e; intro x hx; rw [hb] at hx; cases hx; simp [hv]
      · simp only [Bool.not_eq_true] at hv
        simp only [hv, Bool.not_false, if_true, List.mem_singleton, Option.some.injEq]
        constructor
        · intro e; subst e; exact ⟨rfl, b, hb, hv⟩
        · intro h; exact h.1.symm

theorem neighborsOf_eq {cols rows : Nat} {maze : List Cell} (hs : Shape cols rows maze)
    {i : Nat} {a : Cell} (ha : maze[i]? = some a) :
    neighborsOf cols rows maze a =
      pushUnvisited maze (nb cols (cols * rows) i .top) ++
      pushUnvisited maze (nb cols (cols * rows) i .right) ++
      pushUnvisited maze (nb cols (cols * rows) i .bottom) ++
      pushUnvisited maze (nb cols (cols * rows) i .left) := by
  have t := gridIndex_side hs ha .top
  have r := gridIndex_side hs ha .right
  have b := gridIndex_side hs ha .bottom
  have l := gridIndex_side hs ha .left
  simp only [Side.dx, Side.dy, add_zero, ← Int.sub_eq_add_neg] at t r b l
  unfold neighborsOf
  simp only [t, r, b, l]

theorem mem_neighborsOf {cols rows : Nat} {maze : List Cell} (hs : Shape cols rows maze)
    {i : Nat} {a : Cell} (ha : maze[i]? = some a) {j : Nat} :
    j ∈ neighborsOf cols rows maze a ↔
      ∃ k, nb cols (cols * rows) i k = some j ∧ ∃ b, maze[j]? = some b ∧ b.visited = false := by
  rw [neighborsOf_eq hs ha]
  simp only [List.mem_append, mem_pushUnvisited]
  constructor
  · rintro (((h | h) | h) | h)
    · exact ⟨.top, h⟩
    · exact ⟨.right, h⟩
    · exact ⟨.bottom, h⟩
    · exact ⟨.left, h⟩
  · rintro ⟨k, h⟩
    cases k
    · exact Or.inl (Or.inl (Or.inl h))
    · exact Or.inl (Or.inl (Or.inr h))
    · exact Or.inl (Or.inr h)
    · exact Or.inr h

theorem RandomDraw.floorMul_lt (u : RandomDraw) {n : Nat} (hn : 0 < n) : u.floorMul n < n := by
  unfold RandomDraw.floorMul
  have hd : 0 < u.den := Nat.lt_of_le_of_lt (Nat.zero_le _) u.lt
  rw [Nat.div_lt_iff_lt_mul hd]
  exact Nat.mul_lt_mul_of_lt_of_le u.lt (Nat.le_refl n) hn |>.trans_eq (Nat.mul_comm _ _)

theorem checkNeighbors_some {cols rows : Nat} {maze : List Cell} {a : Cell} {u : RandomDraw}
    {j : Nat} (h : checkNeighbors cols rows maze a u = some j) :
    j ∈ neighborsOf cols rows maze a := by
  unfold checkNeighbors at h
  simp only [] at h
  split at h
  · exact List.getElem?_mem h
  · cases h

theorem checkNeighbors_none {cols rows : Nat} {maze : List Cell} {a : Cell} {u : RandomDraw}
    (h : checkNeighbors cols rows maze a u = none) :
    neighborsOf cols rows maze a = [] := by
  unfold checkNeighbors at h
  simp only [] at h
  split at h
  · rename_i hpos
    have := u.floorMul_lt hpos
    rw [List.getElem?_eq_getElem this] at h
    cases h
  · rename_i hpos
    exact List.eq_nil_of_length_eq_zero (by omega)

theorem removeWalls_step {cols rows : Nat} {maze : List Cell} (hs : Shape cols rows maze)
    {cur next : Nat} {k : Side} {a b : Cell} (ha : maze[cur]? = some a)
    (hb : maze[next]? = some b) (hk : nb cols (cols * rows) cur k = some next) :
    ∃ maze', removeWalls (maze.modify (fun c => { c with visited := true }) next) cur next
        = some maze' ∧ MazeUpd maze maze' cur next k := by
  have hi := hs.lt_of_get ha
  have hne : next ≠ cur := nb_ne hi hk
  obtain ⟨e1, e2⟩ := nb_coord hi hk
  obtain ⟨a1, a2⟩ := hs.coord cur a ha
  obtain ⟨b1, b2⟩ := hs.coord next b hb
  have hx : a.col - b.col = - k.dx := by rw [a1, b1, e1]; ring
  have hy : a.row - b.row = - k.dy := by rw [a2, b2, e2]; ring
  have g1 : (maze.modify (fun c => { c with visited := true }) next)[cur]? = some a := by
    rw [List.getElem?_modify, ha]; simp [hne]
  have g2 : (maze.modify (fun c => { c with visited := true }) next)[next]?
      = some { b with visited := true } := by
    rw [List.getElem?_modify, hb]; simp
  unfold removeWalls
  rw [g1, g2]
  simp only [hx, hy]
  refine ⟨_, rfl, ?_⟩
  cases k <;> simp only [Side.dx, Side.dy] <;> norm_num <;>
  · constructor
    · simp
    · intro i c hc
      simp only [List.getElem?_modify, hc, Option.map_eq_map, Option.map_some']
      refine ⟨_, rfl, ?_⟩
      by_cases h1 : i = cur
      · subst h1
        have : ¬ next = i := hne
        simp only [this, if_false, if_true]
        refine ⟨trivial, trivial, by simp [Ne.symm this], ?_⟩
        intro s; cases s <;> simp [Cell.wall, Side.opp, Ne.symm this]
      · by_cases h2 : i = next
        · subst h2
          have : ¬ cur = i := fun h => h1 h.symm
          simp only [this, if_false, if_true]
          refine ⟨trivial, trivial, by simp, ?_⟩
          intro s; cases s <;> simp [Cell.wall, Side.opp, h1]
        · have n1 : ¬ cur = i := fun h => h1 h.symm
          have n2 : ¬ next = i := fun h => h2 h.symm
          simp only [n1, n2, if_false]
          refine ⟨trivial, trivial, by simp [h2], ?_⟩
          intro s; simp [h1, h2]

/-! ## Adding a pendant edge to an acyclic graph -/

theorem reachable_map_of_adj {V : Type} {G H : SimpleGraph V} (f : V → V)
    (h : ∀ x y, G.Adj x y → H.Reachable (f x) (f y)) {x y : V} (p : G.Walk x y) :
    H.Reachable (f x) (f y) := by
  induction p with
  | nil => exact SimpleGraph.Reachable.refl _
  | cons hxy _ ih => exact (h _ _ hxy).trans ih

theorem eq_of_reachable_isolated {V : Type} {G : SimpleGraph V} {v w : V}
    (hiso : ∀ x, ¬ G.Adj v x) (h : G.Reachable v w) : v = w := by
  obtain ⟨p⟩ := h
  cases p with
  | nil => rfl
  | cons hxy _ => exact absurd hxy (hiso _)

theorem acyclic_pendant {V : Type} [DecidableEq V] (G G' : SimpleGraph V) (u v : V) (huv : u ≠ v)
    (hiso : ∀ w, ¬ G.Adj v w)
    (hadj : ∀ a b, G'.Adj a b ↔ G.Adj a b ∨ (a = u ∧ b = v) ∨ (a = v ∧ b = u))
    (hG : G.IsAcyclic) : G'.IsAcyclic := by
  rw [SimpleGraph.isAcyclic_iff_forall_adj_isBridge] at hG ⊢
  intro a b hab
  rw [SimpleGraph.isBridge_iff]
  refine ⟨hab, ?_⟩
  intro hreach
  by_cases hGab : G.Adj a b
  · have hav : a ≠ v := fun e => hiso b (e ▸ hGab)
    have hbv : b ≠ v := fun e => hiso a (e ▸ hGab.symm)
    have hbr := (SimpleGraph.isBridge_iff.1 (hG hGab)).2
    apply hbr
    obtain ⟨p⟩ := hreach
    have key := reachable_map_of_adj (H := G \ SimpleGraph.fromEdgeSet {s(a, b)})
      (fun x => if x = v then u else x) (fun x y hxy => by
        rw [SimpleGraph.sdiff_adj, SimpleGraph.fromEdgeSet_adj] at hxy
        obtain ⟨h1, h2⟩ := hxy
        rcases (hadj x y).1 h1 with h | ⟨rfl, rfl⟩ | ⟨rfl, rfl⟩
        · have hxv : x ≠ v := fun e => hiso y (e ▸ h)
          have hyv : y ≠ v := fun e => hiso x (e ▸ h.symm)
          simp only [hxv, hyv, if_false]
          apply SimpleGraph.Adj.reachable
          rw [SimpleGraph.sdiff_adj, SimpleGraph.fromEdgeSet_adj]
          exact ⟨h, h2⟩
        · simp only [huv, if_false, if_true]; exact SimpleGraph.Reachable.refl _
        · simp only [huv, if_false, if_true]; exact SimpleGraph.Reachable.refl _) p
    simpa [hav, hbv] using key
  · have hle : G' \ SimpleGraph.fromEdgeSet {s(a, b)} ≤ G := by
      intro x y hxy
      rw [SimpleGraph.sdiff_adj, SimpleGraph.fromEdgeSet_adj] at hxy
      obtain ⟨h1, h2⟩ := hxy
      rcases (hadj x y).1 h1 with h | ⟨rfl, rfl⟩ | ⟨rfl, rfl⟩
      · exact h
      · exfalso
        rcases (hadj a b).1 hab with h | ⟨rfl, rfl⟩ | ⟨rfl, rfl⟩
        · exact hGab h
        · exact h2 ⟨by simp, huv⟩
        · exact h2 ⟨by simp [Sym2.eq_swap], huv⟩
      · exfalso
        rcases (hadj a b).1 hab with h | ⟨rfl, rfl⟩ | ⟨rfl, rfl⟩
        · exact hGab h
        · exact h2 ⟨by simp [Sym2.eq_swap], huv.symm⟩
        · exact h2 ⟨by simp, huv.symm⟩
    have hr : G.Reachable a b := hreach.mono hle
    rcases (hadj a b).1 hab with h | ⟨rfl, rfl⟩ | ⟨rfl, rfl⟩
    · exact hGab h
    · exact huv (eq_of_reachable_isolated hiso hr.symm).symm
    · exact huv (eq_of_reachable_isolated hiso hr).symm

/-! ## One iteration of the generation loop -/

theorem MazeUpd.get_inv {maze maze' : List Cell} {cur next : Nat} {k : Side}
    (hu : MazeUpd maze maze' cur next k) {i : Nat} {a' : Cell} (h : maze'[i]? = some a') :
    ∃ a : Cell, maze[i]? = some a ∧ a'.col = a.col ∧ a'.row = a.row ∧
      a'.visited = (a.visited || decide (i = next)) ∧
      ∀ s, a'.wall s = (a.wall s && !decide ((i = cur ∧ s = k) ∨ (i = next ∧ s = k.opp))) := by
  have hi : i < maze.length := by
    rw [← hu.len]; exact (List.getElem?_eq_some_iff.1 h).1
  obtain ⟨a'', h1, h2⟩ := hu.get i maze[i] (List.getElem?_eq_getElem hi)
  rw [h] at h1
  cases h1
  exact ⟨_, List.getElem?_eq_getElem hi, h2⟩

theorem MazeUpd.shape {cols rows : Nat} {maze maze' : List Cell} {cur next : Nat} {k : Side}
    (hu : MazeUpd maze maze' cur next k) (hs : Shape cols rows maze) : Shape cols rows maze' := by
  constructor
  · rw [hu.len, hs.len]
  · intro i c hc
    obtain ⟨a, ha, h1, h2, _⟩ := hu.get_inv hc
    rw [h1, h2]
    exact hs.coord i a ha

/-- The three ways an iteration can go, under the loop invariant: visit an unvisited
neighbour of the current cell, backtrack to the top of the stack, or stop. -/
theorem genStep_cases {cols rows : Nat} {s : GenState} (hinv : GenInv cols rows s)
    (u : RandomDraw) :
    (∃ (k : Side) (next : Nat) (maze' : List Cell),
        nb cols (cols * rows) s.currentCell k = some next ∧
        (∃ b : Cell, s.maze[next]? = some b ∧ b.visited = false) ∧
        MazeUpd s.maze maze' s.currentCell next k ∧
        genStep cols rows u s
          = .next { maze := maze', currentCell := next, stack := s.currentCell :: s.stack } true)
    ∨ ((∀ (k : Side) (j : Nat) (b : Cell), nb cols (cols * rows) s.currentCell k = some j →
          s.maze[j]? = some b → b.visited = true) ∧
        ((∃ top rest, s.stack = top :: rest ∧
            genStep cols rows u s = .next { s with currentCell := top, stack := rest } false)
          ∨ (s.stack = [] ∧ genStep cols rows u s = .done s.maze))) := by
  obtain ⟨a, ha, _⟩ := hinv.cur_vis
  cases hcn : checkNeighbors cols rows s.maze a u with
  | some next =>
    left
    obtain ⟨k, hk, b, hb, hbv⟩ := (mem_neighborsOf hinv.shape ha).1 (checkNeighbors_some hcn)
    obtain ⟨maze', heq, hu⟩ := removeWalls_step hinv.shape ha hb hk
    refine ⟨k, next, maze', hk, ⟨b, hb, hbv⟩, hu, ?_⟩
    simp only [genStep, ha, hcn, heq]
  | none =>
    right
    have hnil := checkNeighbors_none hcn
    constructor
    · intro k j b hk hb
      by_contra hv
      have : j ∈ neighborsOf cols rows s.maze a :=
        (mem_neighborsOf hinv.shape ha).2 ⟨k, hk, b, hb, by simpa using hv⟩
      rw [hnil] at this
      cases this
    · cases hst : s.stack with
      | nil =>
        right
        refine ⟨rfl, ?_⟩
        simp only [genStep, ha, hcn, hst]
      | cons top rest =>
        left
        refine ⟨top, rest, rfl, ?_⟩
        simp only [genStep, ha, hcn, hst]

/-! ## The invariant is kept when the loop visits a new cell -/

theorem Side.opp_opp (k : Side) : k.opp.opp = k := by
  cases k <;> rfl

theorem Side.opp_eq_iff {k k' : Side} : k'.opp = k ↔ k' = k.opp := by
  cases k <;> cases k' <;> simp [Side.opp]

/-- The two half-walls touched by a visit are exactly the two sides of one wall. -/
theorem touched_iff {cols rows : Nat} {cur next i j : Nat} {k k' : Side}
    (hcur : cur < cols * rows) (hi : i < cols * rows)
    (hk : nb cols (cols * rows) cur k = some next)
    (hij : nb cols (cols * rows) i k' = some j) :
    ((i = cur ∧ k' = k) ∨ (i = next ∧ k' = k.opp)) ↔
      ((j = cur ∧ k'.opp = k) ∨ (j = next ∧ k'.opp = k.opp)) := by
  have hback := nb_opp hcur hk
  have hji := nb_opp hi hij
  constructor
  · rintro (⟨rfl, rfl⟩ | ⟨rfl, rfl⟩)
    · right
      rw [hk] at hij
      exact ⟨(Option.some.inj hij).symm, rfl⟩
    · left
      rw [hback] at hij
      exact ⟨(Option.some.inj hij).symm, Side.opp_opp _⟩
  · rintro (⟨rfl, h2⟩ | ⟨rfl, h2⟩)
    · right
      rw [h2, hk] at hji
      exact ⟨(Option.some.inj hji).symm, Side.opp_eq_iff.1 h2⟩
    · left
      rw [h2, hback] at hji
      refine ⟨(Option.some.inj hji).symm, ?_⟩
      have := congrArg Side.opp h2
      rwa [Side.opp_opp, Side.opp_opp] at this

theorem MazeUpd.visited_mono {maze maze' : List Cell} {cur next : Nat} {k : Side}
    (hu : MazeUpd maze maze' cur next k) {i : Nat}
    (h : ∃ a : Cell, maze[i]? = some a ∧ a.visited = true) :
    ∃ a : Cell, maze'[i]? = some a ∧ a.visited = true := by
  obtain ⟨a, ha, hv⟩ := h
  obtain ⟨a', ha', _, _, hv', _⟩ := hu.get i a ha
  exact ⟨a', ha', by rw [hv', hv]; rfl⟩

theorem MazeUpd.visited_next {maze maze' : List Cell} {cur next : Nat} {k : Side}
    (hu : MazeUpd maze maze' cur next k) {b : Cell} (hb : maze[next]? = some b) :
    ∃ a : Cell, maze'[next]? = some a ∧ a.visited = true := by
  obtain ⟨a', ha', _, _, hv', _⟩ := hu.get next b hb
  exact ⟨a', ha', by rw [hv']; simp⟩

theorem visit_sym {cols rows : Nat} {s : GenState} (hinv : GenInv cols rows s)
    {k : Side} {next : Nat} {maze' : List Cell}
    (hk : nb cols (cols * rows) s.currentCell k = some next)
    (hu : MazeUpd s.maze maze' s.currentCell next k) :
    ∀ (i j : Nat) (k' : Side) (a b : Cell), maze'[i]? = some a → maze'[j]? = some b →
      nb cols (cols * rows) i k' = some j → a.wall k' = b.wall k'.opp := by
  intro i j k' a' b' ha' hb' hij
  obtain ⟨a, ha, _, _, _, hwa⟩ := hu.get_inv ha'
  obtain ⟨b, hb, _, _, _, hwb⟩ := hu.get_inv hb'
  obtain ⟨c, hc, _⟩ := hinv.cur_vis
  have hcur := hinv.shape.lt_of_get hc
  have hi := hinv.shape.lt_of_get ha
  rw [hwa, hwb, hinv.sym i j k' a b ha hb hij]
  congr 2
  exact decide_eq_decide.2 (touched_iff hcur hi hk hij)

theorem visit_border {cols rows : Nat} {s : GenState} (hinv : GenInv cols rows s)
    {k : Side} {next : Nat} {maze' : List Cell}
    (hk : nb cols (cols * rows) s.currentCell k = some next)
    (hu : MazeUpd s.maze maze' s.currentCell next k) :
    ∀ (i : Nat) (k' : Side) (a : Cell), maze'[i]? = some a →
      nb cols (cols * rows) i k' = none → a.wall k' = true := by
  intro i k' a' ha' hnone
  obtain ⟨a, ha, _, _, _, hwa⟩ := hu.get_inv ha'
  obtain ⟨c, hc, _⟩ := hinv.cur_vis
  have hcur := hinv.shape.lt_of_get hc
  have hback := nb_opp hcur hk
  rw [hwa, hinv.border i k' a ha hnone]
  have : ¬ ((i = s.currentCell ∧ k' = k) ∨ (i = next ∧ k' = k.opp)) := by
    rintro (⟨rfl, rfl⟩ | ⟨rfl, rfl⟩)
    · rw [hk] at hnone; cases hnone
    · rw [hback] at hnone; cases hnone
  simp [this]

theorem visit_fresh {cols rows : Nat} {s : GenState} (hinv : GenInv cols rows s)
    {k : Side} {next : Nat} {maze' : List Cell}
    (hu : MazeUpd s.maze maze' s.currentCell next k) :
    ∀ (i : Nat) (a : Cell), maze'[i]? = some a → a.visited = false → ∀ k', a.wall k' = true := by
  intro i a' ha' hv' k'
  obtain ⟨a, ha, _, _, hva, hwa⟩ := hu.get_inv ha'
  rw [hv'] at hva
  have hav : a.visited = false := by
    cases h : a.visited
    · rfl
    · rw [h] at hva; simp at hva
  have hine : i ≠ next := by
    rintro rfl
    rw [hav] at hva; simp at hva
  have hic : i ≠ s.currentCell := by
    rintro rfl
    obtain ⟨c, hc, hcv⟩ := hinv.cur_vis
    rw [ha] at hc; cases hc
    rw [hav] at hcv; cases hcv
  rw [hwa, hinv.fresh i a ha hav k']
  simp [hine, hic]


/-- The open steps after a visit are the old ones and the new passage, in both directions. -/
theorem openStep_visit {cols rows : Nat} {s : GenState} (hinv : GenInv cols rows s)
    {k : Side} {next : Nat} {maze' : List Cell}
    (hk : nb cols (cols * rows) s.currentCell k = some next)
    (hu : MazeUpd s.maze maze' s.currentCell next k) (x y : Nat) :
    OpenStep cols rows maze' x y ↔
      OpenStep cols rows s.maze x y ∨ (x = s.currentCell ∧ y = next)
        ∨ (x = next ∧ y = s.currentCell) := by
  obtain ⟨c, hc, _⟩ := hinv.cur_vis
  have hcur := hinv.shape.lt_of_get hc
  have hback := nb_opp hcur hk
  have hnext := nb_lt hcur hk
  constructor
  · rintro ⟨k', a', ha', hxy, hw⟩
    obtain ⟨a, ha, _, _, _, hwa⟩ := hu.get_inv ha'
    rw [hwa] at hw
    by_cases hold : a.wall k' = false
    · exact Or.inl ⟨k', a, ha, hxy, hold⟩
    · right
      have ht : (x = s.currentCell ∧ k' = k) ∨ (x = next ∧ k' = k.opp) := by
        by_contra hn
        simp [hn] at hw
        exact hold hw
      rcases ht with ⟨rfl, rfl⟩ | ⟨rfl, rfl⟩
      · rw [hk] at hxy
        exact Or.inl ⟨rfl, (Option.some.inj hxy).symm⟩
      · rw [hback] at hxy
        exact Or.inr ⟨rfl, (Option.some.inj hxy).symm⟩
  · rintro (⟨k', a, ha, hxy, hw⟩ | ⟨rfl, rfl⟩ | ⟨rfl, rfl⟩)
    · obtain ⟨a', ha', _, _, _, hwa⟩ := hu.get x a ha
      exact ⟨k', a', ha', hxy, by rw [hwa, hw]; rfl⟩
    · obtain ⟨a', ha', _, _, _, hwa⟩ := hu.get _ c hc
      exact ⟨k, a', ha', hk, by rw [hwa]; simp⟩
    · obtain ⟨b, hb⟩ := hinv.shape.get_of_lt hnext
      obtain ⟨a', ha', _, _, _, hwa⟩ := hu.get _ b hb
      exact ⟨k.opp, a', ha', hback, by rw [hwa]; simp⟩

theorem visit_conn {cols rows : Nat} {s : GenState} (hinv : GenInv cols rows s)
    {k : Side} {next : Nat} {maze' : List Cell}
    (hk : nb cols (cols * rows) s.currentCell k = some next)
    (hu : MazeUpd s.maze maze' s.currentCell next k) :
    ∀ (i : Nat) (a : Cell), maze'[i]? = some a → a.visited = true →
      Relation.ReflTransGen (OpenStep cols rows maze') 0 i := by
  have hmono : ∀ {i : Nat}, Relation.ReflTransGen (OpenStep cols rows s.maze) 0 i →
      Relation.ReflTransGen (OpenStep cols rows maze') 0 i := by
    intro i h
    exact Relation.ReflTransGen.mono (fun x y hxy => (openStep_visit hinv hk hu x y).2 (Or.inl hxy)) h
  intro i a' ha' hv'
  obtain ⟨a, ha, _, _, hva, _⟩ := hu.get_inv ha'
  by_cases hin : i = next
  · subst hin
    obtain ⟨c, hc, hcv⟩ := hinv.cur_vis
    exact (hmono (hinv.conn _ c hc hcv)).tail
      ((openStep_visit hinv hk hu _ _).2 (Or.inr (Or.inl ⟨rfl, rfl⟩)))
  · have hav : a.visited = true := by
      rw [hv'] at hva
      simpa [hin] using hva.symm
    exact hmono (hinv.conn i a ha hav)

theorem visit_closed {cols rows : Nat} {s : GenState} (hinv : GenInv cols rows s)
    {k : Side} {next : Nat} {maze' : List Cell}
    (hu : MazeUpd s.maze maze' s.currentCell next k) :
    ∀ (i : Nat) (a : Cell), maze'[i]? = some a → a.visited = true → i ≠ next →
      i ∉ s.currentCell :: s.stack →
      ∀ (k' : Side) (j : Nat) (b : Cell), nb cols (cols * rows) i k' = some j →
        maze'[j]? = some b → b.visited = true := by
  intro i a' ha' hv' hin hst k' j b' hij hb'
  obtain ⟨a, ha, _, _, hva, _⟩ := hu.get_inv ha'
  obtain ⟨b, hb, _, _, hvb, _⟩ := hu.get_inv hb'
  have hav : a.visited = true := by
    rw [hv'] at hva
    simpa [hin] using hva.symm
  simp only [List.mem_cons, not_or] at hst
  have := hinv.closed i a ha hav hst.1 hst.2 k' j b hij hb
  rw [hvb, this]
  rfl

theorem cellGraph_adj {cols rows : Nat} {maze : List Cell} {x y : Nat} :
    (cellGraph cols rows maze).Adj x y ↔
      x ≠ y ∧ (OpenStep cols rows maze x y ∨ OpenStep cols rows maze y x) := by
  unfold cellGraph
  exact SimpleGraph.fromRel_adj _ _ _

theorem visit_acyclic {cols rows : Nat} {s : GenState} (hinv : GenInv cols rows s)
    {k : Side} {next : Nat} {maze' : List Cell}
    (hk : nb cols (cols * rows) s.currentCell k = some next)
    (hb : ∃ b : Cell, s.maze[next]? = some b ∧ b.visited = false)
    (hu : MazeUpd s.maze maze' s.currentCell next k) :
    (cellGraph cols rows maze').IsAcyclic := by
  obtain ⟨c, hc, _⟩ := hinv.cur_vis
  obtain ⟨b, hb, hbv⟩ := hb
  have hcur := hinv.shape.lt_of_get hc
  have hne : s.currentCell ≠ next := (nb_ne hcur hk).symm
  apply acyclic_pendant (cellGraph cols rows s.maze) _ s.currentCell next hne _ _ hinv.acyclic
  · intro w hw
    rw [cellGraph_adj] at hw
    rcases hw.2 with ⟨k', a, ha, _, hwall⟩ | ⟨k', a, ha, hxy, hwall⟩
    · rw [hb] at ha; cases ha
      rw [hinv.fresh next _ hb hbv k'] at hwall
      cases hwall
    · rw [hinv.sym w next k' a b ha hb hxy, hinv.fresh next b hb hbv] at hwall
      cases hwall
  · intro x y
    rw [cellGraph_adj, cellGraph_adj, openStep_visit hinv hk hu, openStep_visit hinv hk hu]
    constructor
    · rintro ⟨hxy, h⟩
      rcases h with (h | h | h) | (h | h | h)
      · exact Or.inl ⟨hxy, Or.inl h⟩
      · exact Or.inr (Or.inl h)
      · exact Or.inr (Or.inr h)
      · exact Or.inl ⟨hxy, Or.inr h⟩
      · exact Or.inr (Or.inr ⟨h.2, h.1⟩)
      · exact Or.inr (Or.inl ⟨h.2, h.1⟩)
    · rintro (⟨hxy, h | h⟩ | ⟨rfl, rfl⟩ | ⟨rfl, rfl⟩)
      · exact ⟨hxy, Or.inl (Or.inl h)⟩
      · exact ⟨hxy, Or.inr (Or.inl h)⟩
      · exact ⟨hne, Or.inl (Or.inr (Or.inl ⟨rfl, rfl⟩))⟩
      · exact ⟨hne.symm, Or.inl (Or.inr (Or.inr ⟨rfl, rfl⟩))⟩


/-! ## Counting visited cells and removed walls -/

theorem mem_idxSet {maze : List Cell} {p : Cell → Bool} {i : Nat} :
    i ∈ idxSet maze p ↔ ∃ a : Cell, maze[i]? = some a ∧ p a = true := by
  unfold idxSet
  rw [Finset.mem_filter, Finset.mem_range]
  constructor
  · rintro ⟨hi, h⟩
    refine ⟨maze[i], List.getElem?_eq_getElem hi, ?_⟩
    rw [List.getElem?_eq_getElem hi] at h
    simpa using h
  · rintro ⟨a, ha, hp⟩
    refine ⟨(List.getElem?_eq_some_iff.1 ha).1, ?_⟩
    rw [ha]
    simp [hp]

theorem Side.ne_opp (k : Side) : k ≠ k.opp := by
  cases k <;> simp [Side.opp]

theorem visit_visitedSet {s : GenState}
    {k : Side} {next : Nat} {maze' : List Cell}
    (hb : ∃ b : Cell, s.maze[next]? = some b ∧ b.visited = false)
    (hu : MazeUpd s.maze maze' s.currentCell next k) :
    (idxSet maze' Cell.visited).card = (idxSet s.maze Cell.visited).card + 1 := by
  obtain ⟨b, hb, hbv⟩ := hb
  have hnot : next ∉ idxSet s.maze Cell.visited := by
    rw [mem_idxSet]
    rintro ⟨a, ha, hv⟩
    rw [hb] at ha; cases ha
    rw [hbv] at hv; cases hv
  have heq : idxSet maze' Cell.visited = insert next (idxSet s.maze Cell.visited) := by
    ext i
    rw [Finset.mem_insert, mem_idxSet, mem_idxSet]
    constructor
    · rintro ⟨a', ha', hv'⟩
      obtain ⟨a, ha, _, _, hva, _⟩ := hu.get_inv ha'
      by_cases hin : i = next
      · exact Or.inl hin
      · right
        refine ⟨a, ha, ?_⟩
        rw [hv'] at hva
        simpa [hin] using hva.symm
    · rintro (rfl | ⟨a, ha, hv⟩)
      · exact hu.visited_next hb
      · exact hu.visited_mono ⟨a, ha, hv⟩
  rw [heq, Finset.card_insert_of_not_mem hnot]

theorem visit_openSet {cols rows : Nat} {s : GenState} (hinv : GenInv cols rows s)
    {k : Side} {next : Nat} {maze' : List Cell}
    (hk : nb cols (cols * rows) s.currentCell k = some next)
    (hb : ∃ b : Cell, s.maze[next]? = some b ∧ b.visited = false)
    (hu : MazeUpd s.maze maze' s.currentCell next k) (sd : Side) :
    (idxSet maze' fun a => !a.wall sd).card =
      (idxSet s.maze fun a => !a.wall sd).card + (if sd = k ∨ sd = k.opp then 1 else 0) := by
  obtain ⟨c, hc, _⟩ := hinv.cur_vis
  obtain ⟨b, hb, hbv⟩ := hb
  have hmem : ∀ i, i ∈ (idxSet maze' fun a => !a.wall sd) ↔
      i ∈ (idxSet s.maze fun a => !a.wall sd) ∨ (i = s.currentCell ∧ sd = k)
        ∨ (i = next ∧ sd = k.opp) := by
    intro i
    rw [mem_idxSet, mem_idxSet]
    constructor
    · rintro ⟨a', ha', hw'⟩
      obtain ⟨a, ha, _, _, _, hwa⟩ := hu.get_inv ha'
      rw [hwa] at hw'
      by_cases ht : (i = s.currentCell ∧ sd = k) ∨ (i = next ∧ sd = k.opp)
      · exact Or.inr ht
      · left
        refine ⟨a, ha, ?_⟩
        simpa [ht] using hw'
    · rintro (⟨a, ha, hw⟩ | ht)
      · obtain ⟨a', ha', _, _, _, hwa⟩ := hu.get i a ha
        refine ⟨a', ha', ?_⟩
        rw [hwa]
        simp only [Bool.not_eq_true'] at hw
        rw [hw]; rfl
      · have hi : ∃ a : Cell, s.maze[i]? = some a := by
          rcases ht with ⟨rfl, _⟩ | ⟨rfl, _⟩
          · exact ⟨c, hc⟩
          · exact ⟨b, hb⟩
        obtain ⟨a, ha⟩ := hi
        obtain ⟨a', ha', _, _, _, hwa⟩ := hu.get i a ha
        refine ⟨a', ha', ?_⟩
        rw [hwa]
        simp [ht]
  have hcw : c.wall k = true := by
    rw [hinv.sym _ _ k c b hc hb hk]
    exact hinv.fresh next b hb hbv _
  have hnc : s.currentCell ∉ (idxSet s.maze fun a => !a.wall k) := by
    rw [mem_idxSet]
    rintro ⟨a, ha, hw⟩
    rw [hc] at ha; cases ha
    rw [hcw] at hw; cases hw
  have hnn : next ∉ (idxSet s.maze fun a => !a.wall k.opp) := by
    rw [mem_idxSet]
    rintro ⟨a, ha, hw⟩
    rw [hb] at ha; cases ha
    rw [hinv.fresh next _ hb hbv] at hw; cases hw
  by_cases h1 : sd = k
  · subst h1
    have heq : (idxSet maze' fun a => !a.wall sd)
        = insert s.currentCell (idxSet s.maze fun a => !a.wall sd) := by
      ext i
      rw [hmem, Finset.mem_insert]
      have := Side.ne_opp sd
      constructor
      · rintro (h | ⟨h, _⟩ | ⟨_, h⟩)
        · exact Or.inr h
        · exact Or.inl h
        · exact absurd h this
      · rintro (h | h)
        · exact Or.inr (Or.inl ⟨h, rfl⟩)
        · exact Or.inl h
    rw [heq, Finset.card_insert_of_not_mem hnc]
    simp
  · by_cases h2 : sd = k.opp
    · subst h2
      have heq : (idxSet maze' fun a => !a.wall k.opp)
          = insert next (idxSet s.maze fun a => !a.wall k.opp) := by
        ext i
        rw [hmem, Finset.mem_insert]
        constructor
        · rintro (h | ⟨_, h⟩ | ⟨h, _⟩)
          · exact Or.inr h
          · exact absurd h h1
          · exact Or.inl h
        · rintro (h | h)
          · exact Or.inr (Or.inr ⟨h, rfl⟩)
          · exact Or.inl h
      rw [heq, Finset.card_insert_of_not_mem hnn]
      simp
    · have heq : (idxSet maze' fun a => !a.wall sd) = (idxSet s.maze fun a => !a.wall sd) := by
        ext i
        rw [hmem]
        constructor
        · rintro (h | ⟨_, h⟩ | ⟨_, h⟩)
          · exact h
          · exact absurd h h1
          · exact absurd h h2
        · exact Or.inl
      rw [heq]
      simp [h1, h2]

theorem visit_count {cols rows : Nat} {s : GenState} (hinv : GenInv cols rows s)
    {k : Side} {next : Nat} {maze' : List Cell}
    (hk : nb cols (cols * rows) s.currentCell k = some next)
    (hb : ∃ b : Cell, s.maze[next]? = some b ∧ b.visited = false)
    (hu : MazeUpd s.maze maze' s.currentCell next k) :
    (idxSet maze' fun a => !a.wall .right).card + (idxSet maze' fun a => !a.wall .bottom).card + 1
      = (idxSet maze' Cell.visited).card := by
  rw [visit_visitedSet hb hu, visit_openSet hinv hk hb hu, visit_openSet hinv hk hb hu,
    ← hinv.count]
  cases k <;> simp [Side.opp] <;> omega

/-- The invariant is kept by an iteration that visits a new cell. -/
theorem GenInv.visit {cols rows : Nat} {s : GenState} (hinv : GenInv cols rows s)
    {k : Side} {next : Nat} {maze' : List Cell}
    (hk : nb cols (cols * rows) s.currentCell k = some next)
    (hb : ∃ b : Cell, s.maze[next]? = some b ∧ b.visited = false)
    (hu : MazeUpd s.maze maze' s.currentCell next k) :
    GenInv cols rows { maze := maze', currentCell := next, stack := s.currentCell :: s.stack } where
  shape := hu.shape hinv.shape
  cur_vis := hu.visited_next hb.choose_spec.1
  stack_vis := by
    intro i hi
    rcases List.mem_cons.1 hi with rfl | hi
    · exact hu.visited_mono hinv.cur_vis
    · exact hu.visited_mono (hinv.stack_vis i hi)
  root_vis := hu.visited_mono hinv.root_vis
  sym := visit_sym hinv hk hu
  border := visit_border hinv hk hu
  fresh := visit_fresh hinv hu
  conn := visit_conn hinv hk hu
  closed := visit_closed hinv hu
  count := visit_count hinv hk hb hu
  acyclic := visit_acyclic hinv hk hb hu

/-- The invariant is kept by an iteration that backtracks. -/
theorem GenInv.pop {cols rows : Nat} {s : GenState} (hinv : GenInv cols rows s)
    {top : Nat} {rest : List Nat} (hst : s.stack = top :: rest)
    (hall : ∀ (k : Side) (j : Nat) (b : Cell), nb cols (cols * rows) s.currentCell k = some j →
      s.maze[j]? = some b → b.visited = true) :
    GenInv cols rows { s with currentCell := top, stack := rest } where
  shape := hinv.shape
  cur_vis := hinv.stack_vis top (by rw [hst]; exact List.mem_cons_self _ _)
  stack_vis := fun i hi => hinv.stack_vis i (by rw [hst]; exact List.mem_cons_of_mem _ hi)
  root_vis := hinv.root_vis
  sym := hinv.sym
  border := hinv.border
  fresh := hinv.fresh
  conn := hinv.conn
  closed := by
    intro i a ha hv hit hir k j b hij hb
    by_cases hic : i = s.currentCell
    · subst hic
      exact hall k j b hij hb
    · refine hinv.closed i a ha hv hic ?_ k j b hij hb
      rw [hst]
      simp only [List.mem_cons, not_or]
      exact ⟨hit, hir⟩
  count := hinv.count
  acyclic := hinv.acyclic


/-! ## The invariant holds when the loop is entered -/

theorem initCells_succ (cols rows : Nat) :
    initCells cols (rows + 1)
      = initCells cols rows
        ++ (List.range cols).map fun (i : Nat) => Cell.new (i : Int) (rows : Int) := by
  unfold initCells
  rw [List.range_succ, List.flatMap_append, List.flatMap_singleton]

theorem initCells_length (cols rows : Nat) : (initCells cols rows).length = cols * rows := by
  induction rows with
  | zero => simp [initCells]
  | succ n ih => rw [initCells_succ, List.length_append, ih, List.length_map, List.length_range,
      Nat.mul_succ]

theorem initCells_get (cols rows : Nat) {i : Nat} (hi : i < cols * rows) :
    (initCells cols rows)[i]? = some (Cell.new ((i % cols : Nat) : Int) ((i / cols : Nat) : Int)) := by
  induction rows with
  | zero => simp at hi
  | succ n ih =>
    rw [initCells_succ]
    by_cases h : i < cols * n
    · rw [List.getElem?_append_left (by rw [initCells_length]; exact h)]
      exact ih h
    · have hle : cols * n ≤ i := Nat.le_of_not_lt h
      rw [List.getElem?_append_right (by rw [initCells_length]; exact hle), initCells_length,
        List.getElem?_map]
      rw [Nat.mul_succ] at hi
      have hlt : i - cols * n < cols := by omega
      rw [List.getElem?_range hlt]
      obtain ⟨e1, e2⟩ := @decomp_unique cols (i - cols * n) n hlt
      have hi' : i - cols * n + cols * n = i := by omega
      rw [hi'] at e1 e2
      rw [e1, e2]
      rfl

/-- The cells of the grid when the `while` loop is entered. -/
theorem init_get {cols rows : Nat} {i : Nat} {a : Cell}
    (h : ((initCells cols rows).modify (fun c => { c with visited := true }) 0)[i]? = some a) :
    i < cols * rows ∧ a.col = ((i % cols : Nat) : Int) ∧ a.row = ((i / cols : Nat) : Int) ∧
      (∀ k, a.wall k = true) ∧ (a.visited = true ↔ i = 0) := by
  have hi : i < cols * rows := by
    have := (List.getElem?_eq_some_iff.1 h).1
    rwa [List.length_modify, initCells_length] at this
  rw [List.getElem?_modify, initCells_get cols rows hi] at h
  simp only [Option.map_eq_map, Option.map_some', Option.some.injEq] at h
  subst h
  refine ⟨hi, ?_, ?_, ?_, ?_⟩
  · by_cases h0 : 0 = i <;> simp [h0, Cell.new]
  · by_cases h0 : 0 = i <;> simp [h0, Cell.new]
  · intro k
    by_cases h0 : 0 = i <;> cases k <;> simp [h0, Cell.new, Cell.wall]
  · by_cases h0 : 0 = i
    · simp [h0]
    · simp [h0, Cell.new, Ne.symm h0]

theorem init_inv {cols rows : Nat} (hpos : 0 < cols * rows) :
    GenInv cols rows
      { maze := (initCells cols rows).modify (fun c => { c with visited := true }) 0,
        currentCell := 0, stack := [] } := by
  have hget : ∀ i, i < cols * rows → ∃ a : Cell,
      ((initCells cols rows).modify (fun c => { c with visited := true }) 0)[i]? = some a := by
    intro i hi
    have : i < ((initCells cols rows).modify (fun c => { c with visited := true }) 0).length := by
      rwa [List.length_modify, initCells_length]
    exact ⟨_, List.getElem?_eq_getElem this⟩
  have hroot : ∃ a : Cell,
      ((initCells cols rows).modify (fun c => { c with visited := true }) 0)[0]? = some a ∧
        a.visited = true := by
    obtain ⟨a, ha⟩ := hget 0 hpos
    exact ⟨a, ha, (init_get ha).2.2.2.2.2 rfl⟩
  have hnostep : ∀ x y, ¬ OpenStep cols rows
      ((initCells cols rows).modify (fun c => { c with visited := true }) 0) x y := by
    rintro x y ⟨k, a, ha, _, hw⟩
    rw [(init_get ha).2.2.2.1 k] at hw
    cases hw
  have hempty : ∀ sd : Side, (idxSet
      ((initCells cols rows).modify (fun c => { c with visited := true }) 0)
      fun a => !a.wall sd) = ∅ := by
    intro sd
    ext i
    rw [mem_idxSet]
    simp only [Finset.not_mem_empty, iff_false, not_exists, not_and]
    intro a ha
    rw [(init_get ha).2.2.2.1 sd]
    simp
  have hvis : idxSet ((initCells cols rows).modify (fun c => { c with visited := true }) 0)
      Cell.visited = {0} := by
    ext i
    rw [mem_idxSet, Finset.mem_singleton]
    constructor
    · rintro ⟨a, ha, hv⟩
      exact (init_get ha).2.2.2.2.1 hv
    · rintro rfl
      exact hroot
  refine
    { shape := ⟨by rw [List.length_modify, initCells_length], fun i c hc =>
        ⟨(init_get hc).2.1, (init_get hc).2.2.1⟩⟩
      cur_vis := hroot
      stack_vis := fun i hi => by cases hi
      root_vis := hroot
      sym := fun i j k a b ha hb _ => by
        rw [(init_get ha).2.2.2.1, (init_get hb).2.2.2.1]
      border := fun i k a ha _ => (init_get ha).2.2.2.1 k
      fresh := fun i a ha _ k => (init_get ha).2.2.2.1 k
      conn := fun i a ha hv => by
        rw [(init_get ha).2.2.2.2.1 hv]
      closed := fun i a ha hv hne => absurd ((init_get ha).2.2.2.2.1 hv) hne
      count := by rw [hempty, hempty, hvis]; rfl
      acyclic := ?_ }
  have : cellGraph cols rows
      ((initCells cols rows).modify (fun c => { c with visited := true }) 0) = ⊥ := by
    ext x y
    rw [cellGraph_adj]
    simp only [SimpleGraph.bot_adj, iff_false, not_and, not_or]
    exact fun _ => ⟨hnostep x y, hnostep y x⟩
  rw [this]
  exact SimpleGraph.isAcyclic_bot


/-! ## The loop stops, and what holds when it does -/

theorem idxSet_card_le (maze : List Cell) (p : Cell → Bool) : (idxSet maze p).card ≤ maze.length := by
  unfold idxSet
  exact (Finset.card_filter_le _ _).trans_eq (Finset.card_range _)

/-- A set of cells that contains cell `0` and is closed under grid neighbours is the
whole grid. -/
theorem grid_connected {cols rows : Nat} (P : Nat → Prop) (h0 : 0 < cols * rows → P 0)
    (hstep : ∀ i k j, i < cols * rows → P i → nb cols (cols * rows) i k = some j → P j) :
    ∀ i, i < cols * rows → P i := by
  intro i
  induction i using Nat.strong_induction_on with
  | _ i ih =>
    intro hi
    rcases Nat.eq_zero_or_pos i with rfl | hpos
    · exact h0 hi
    · have hc := pos_of_lt_mul hi
      by_cases hm : 1 ≤ i % cols
      · obtain ⟨e1, e2⟩ := mod_pred_of_pos hm
        have hlt := Nat.mod_lt i hc
        refine hstep (i - 1) .right i (by omega) (ih (i - 1) (by omega) (by omega)) ?_
        simp only [nb]
        rw [if_pos (by omega)]
        congr 1
        omega
      · have hle : cols ≤ i := by
          have := Nat.mod_add_div i cols
          have hq : 1 ≤ i / cols := by
            rcases Nat.eq_zero_or_pos (i / cols) with h | h
            · rw [h] at this; omega
            · exact h
          have : cols * 1 ≤ cols * (i / cols) := Nat.mul_le_mul_left _ hq
          omega
        refine hstep (i - cols) .bottom i (by omega) (ih (i - cols) (by omega) (by omega)) ?_
        simp only [nb]
        rw [if_pos (by omega)]
        congr 1
        omega

/-- When the loop stops, the invariant gives a finished maze. -/
theorem GenInv.done {cols rows : Nat} {s : GenState} (hinv : GenInv cols rows s)
    (hst : s.stack = [])
    (hall : ∀ (k : Side) (j : Nat) (b : Cell), nb cols (cols * rows) s.currentCell k = some j →
      s.maze[j]? = some b → b.visited = true) :
    MazeDone cols rows s.maze := by
  have hvis : ∀ i, i < cols * rows → ∃ a : Cell, s.maze[i]? = some a ∧ a.visited = true := by
    apply grid_connected
    · intro _; exact hinv.root_vis
    · rintro i k j hi ⟨a, ha, hv⟩ hij
      obtain ⟨b, hb⟩ := hinv.shape.get_of_lt (nb_lt hi hij)
      refine ⟨b, hb, ?_⟩
      by_cases hic : i = s.currentCell
      · subst hic
        exact hall k j b hij hb
      · exact hinv.closed i a ha hv hic (by rw [hst]; exact List.not_mem_nil _) k j b hij hb
  have hvis' : ∀ (i : Nat) (a : Cell), s.maze[i]? = some a → a.visited = true := by
    intro i a ha
    obtain ⟨a', ha', hv⟩ := hvis i (hinv.shape.lt_of_get ha)
    rw [ha] at ha'
    cases ha'
    exact hv
  refine
    { shape := hinv.shape
      sym := hinv.sym
      border := hinv.border
      visited := hvis'
      conn := fun i hi => by
        obtain ⟨a, ha, hv⟩ := hvis i hi
        exact hinv.conn i a ha hv
      count := ?_
      acyclic := hinv.acyclic }
  have : idxSet s.maze Cell.visited = Finset.range (cols * rows) := by
    ext i
    rw [mem_idxSet, Finset.mem_range]
    exact ⟨fun ⟨a, ha, _⟩ => hinv.shape.lt_of_get ha, hvis i⟩
  rw [hinv.count, this, Finset.card_range]

/-- The loop reaches its `break` within `2 * (unvisited cells) + stack.length + 1`
iterations, and leaves a finished maze. -/
theorem genLoop_done {cols rows : Nat} :
    ∀ (fuel : Nat) (rnd : Nat → RandomDraw) (s : GenState), GenInv cols rows s →
      2 * (cols * rows - (idxSet s.maze Cell.visited).card) + s.stack.length < fuel →
      ∃ maze, genLoop cols rows fuel rnd s = some maze ∧ MazeDone cols rows maze := by
  intro fuel
  induction fuel with
  | zero => intro rnd s _ h; omega
  | succ fuel ih =>
    intro rnd s hinv hfuel
    rcases genStep_cases hinv (rnd 0) with
      ⟨k, next, maze', hk, hb, hu, hstep⟩ | ⟨hall, ⟨top, rest, hst, hstep⟩ | ⟨hst, hstep⟩⟩
    · have hinv' := hinv.visit hk hb hu
      have hcard := visit_visitedSet hb hu
      have hle := idxSet_card_le maze' Cell.visited
      rw [hinv'.shape.len] at hle
      simp only [genLoop, hstep]
      apply ih _ _ hinv'
      simp only [List.length_cons]
      omega
    · have hinv' := hinv.pop hst hall
      simp only [genLoop, hstep]
      apply ih _ _ hinv'
      rw [hst] at hfuel
      simp only [List.length_cons] at hfuel
      simp only
      omega
    · simp only [genLoop, hstep]
      exact ⟨s.maze, rfl, hinv.done hst hall⟩

/-- The function `generateMaze` returns, for a grid with at least one cell and a budget of
`2 * cols * rows` iterations, and what it returns is a finished maze. -/
theorem generateMaze_done {cols rows : Nat} (rnd : Nat → RandomDraw) {fuel : Nat}
    (hc : 1 ≤ cols) (hr : 1 ≤ rows) (hfuel : 2 * cols * rows ≤ fuel) :
    ∃ maze, generateMaze cols rows rnd fuel = some maze ∧ MazeDone cols rows maze := by
  have hpos : 0 < cols * rows := Nat.mul_pos hc hr
  have h0 : ∃ a : Cell, (initCells cols rows)[0]? = some a := by
    rw [initCells_get cols rows hpos]
    exact ⟨_, rfl⟩
  obtain ⟨a, ha⟩ := h0
  have hinv := @init_inv cols rows hpos
  unfold generateMaze
  simp only [ha]
  apply genLoop_done fuel rnd _ hinv
  have hcard : 1 ≤ (idxSet ((initCells cols rows).modify (fun c => { c with visited := true }) 0)
      Cell.visited).card := by
    have := hinv.count
    simp only at this
    omega
  simp only [List.length_nil]
  rw [Nat.mul_assoc] at hfuel
  omega

/-- Once the loop has reached its `break`, a larger iteration budget gives the same grid. -/
theorem genLoop_fuel_succ {cols rows : Nat} :
    ∀ (fuel : Nat) (rnd : Nat → RandomDraw) (s : GenState) (maze : List Cell),
      genLoop cols rows fuel rnd s = some maze → genLoop cols rows (fuel + 1) rnd s = some maze := by
  intro fuel
  induction fuel with
  | zero => intro rnd s maze h; cases h
  | succ fuel ih =>
    intro rnd s maze h
    unfold genLoop at h ⊢
    cases hstep : genStep cols rows (rnd 0) s with
    | error => rw [hstep] at h; cases h
    | done m => rw [hstep] at h; exact h
    | next s1 drew =>
      rw [hstep] at h
      exact ih _ _ _ h

/-- The grid `generateMaze` returns does not depend on the iteration budget, once the
budget is enough for the loop to finish. -/
theorem generateMaze_fuel_le {cols rows : Nat} (rnd : Nat → RandomDraw) {fuel fuel' : Nat}
    {maze : List Cell} (hle : fuel ≤ fuel') (h : generateMaze cols rows rnd fuel = some maze) :
    generateMaze cols rows rnd fuel' = some maze := by
  induction hle with
  | refl => exact h
  | step _ ih =>
    unfold generateMaze at ih ⊢
    simp only at ih ⊢
    cases h0 : (initCells cols rows)[0]? with
    | none => rw [h0] at ih; cases ih
    | some a =>
      rw [h0] at ih
      exact genLoop_fuel_succ _ _ _ _ ih


/-! ## From cell indices to cell coordinates -/

theorem cellAt_nat {cols rows : Nat} {maze : List Cell} (hs : Shape cols rows maze)
    {c r : Nat} (hc : c < cols) (hr : r < rows) :
    cellAt cols rows maze (c : Int) (r : Int) = maze[c + cols * r]? := by
  unfold cellAt
  rw [gridIndex_eq_some hs hc hr]

theorem cellAt_idx {cols rows : Nat} {maze : List Cell} (hs : Shape cols rows maze)
    {i : Nat} (hi : i < cols * rows) :
    cellAt cols rows maze ((i % cols : Nat) : Int) ((i / cols : Nat) : Int) = maze[i]? := by
  obtain ⟨h1, h2, h3, _⟩ := div_facts hi
  rw [cellAt_nat hs h1 h2, h3]

theorem cellAt_some_bounds {cols rows : Nat} {maze : List Cell} {c r : Int} {a : Cell}
    (h : cellAt cols rows maze c r = some a) : 0 ≤ c ∧ c < cols ∧ 0 ≤ r ∧ r < rows := by
  unfold cellAt gridIndex at h
  split at h
  · cases h
  · rename_i heq
    split at heq
    · cases heq
    · omega

theorem idx_lt {cols rows c r : Nat} (hc : c < cols) (hr : r < rows) :
    c + cols * r < cols * rows := by
  have : cols * (r + 1) ≤ cols * rows := Nat.mul_le_mul_left _ hr
  rw [Nat.mul_add] at this
  omega

/-- The neighbour relation on indices, recovered from the coordinates. -/
theorem nb_of_coord {cols rows i j : Nat} {k : Side} (hi : i < cols * rows)
    (hj : j < cols * rows)
    (hx : ((j % cols : Nat) : Int) = ((i % cols : Nat) : Int) + k.dx)
    (hy : ((j / cols : Nat) : Int) = ((i / cols : Nat) : Int) + k.dy) :
    nb cols (cols * rows) i k = some j := by
  obtain ⟨i1, i2, i3, _⟩ := div_facts hi
  obtain ⟨j1, j2, j3, _⟩ := div_facts hj
  rw [nb_eq hi]
  generalize i % cols = ci at *
  generalize i / cols = ri at *
  generalize j % cols = cj at *
  generalize j / cols = rj at *
  cases k <;> simp only [Side.dx, Side.dy] at hx hy ⊢
  · have e1 : cj = ci := by omega
    have e2 : rj = ri - 1 := by omega
    rw [if_pos (by omega), ← e1, ← e2, j3]
  · have e1 : cj = ci + 1 := by omega
    have e2 : rj = ri := by omega
    rw [if_pos (by omega), ← e1, ← e2, j3]
  · have e1 : cj = ci := by omega
    have e2 : rj = ri + 1 := by omega
    rw [if_pos (by omega), ← e1, ← e2, j3]
  · have e1 : cj = ci - 1 := by omega
    have e2 : rj = ri := by omega
    rw [if_pos (by omega), ← e1, ← e2, j3]

theorem nb_of_coord_nat {cols rows c r c' r' : Nat} {k : Side} (hc : c < cols) (hr : r < rows)
    (hc' : c' < cols) (hr' : r' < rows)
    (hx : (c' : Int) = (c : Int) + k.dx) (hy : (r' : Int) = (r : Int) + k.dy) :
    nb cols (cols * rows) (c + cols * r) k = some (c' + cols * r') := by
  apply nb_of_coord (idx_lt hc hr) (idx_lt hc' hr')
  · rw [(decomp_unique hc).1, (decomp_unique hc').1]; exact hx
  · rw [(decomp_unique hc).2, (decomp_unique hc').2]; exact hy


/-! ## The generated maze -/

/-- C1. For `cols ≥ 1`, `rows ≥ 1` and any values of `Math.random()`, `generateMaze` returns
(a budget of `2 * cols * rows` loop iterations is enough) and the grid it leaves satisfies
wall symmetry: for horizontally adjacent cells `walls[1]` of `(c, r)` is open exactly when
`walls[3]` of `(c + 1, r)` is, and for vertically adjacent cells `walls[2]` of `(c, r)` is
open exactly when `walls[0]` of `(c, r + 1)` is. -/
theorem generateMaze_wall_symmetry (cols rows : Nat) (rnd : Nat → RandomDraw) (fuel : Nat)
    (hc : 1 ≤ cols) (hr : 1 ≤ rows) (hfuel : 2 * cols * rows ≤ fuel) :
    ∃ maze, generateMaze cols rows rnd fuel = some maze ∧ WallSymmetry cols rows maze := by
  obtain ⟨maze, hgen, hd⟩ := generateMaze_done rnd hc hr hfuel
  refine ⟨maze, hgen, ?_⟩
  intro c r hc0 hcl hr0 hrl
  obtain ⟨c, rfl⟩ := Int.eq_ofNat_of_zero_le hc0
  obtain ⟨r, rfl⟩ := Int.eq_ofNat_of_zero_le hr0
  have hc' : c < cols := by omega
  have hr' : r < rows := by omega
  obtain ⟨a, ha⟩ := hd.shape.get_of_lt (idx_lt hc' hr')
  constructor
  · intro h1
    have hc1 : c + 1 < cols := by omega
    obtain ⟨b, hb⟩ := hd.shape.get_of_lt (idx_lt hc1 hr')
    have hnb : nb cols (cols * rows) (c + cols * r) .right = some (c + 1 + cols * r) :=
      nb_of_coord_nat hc' hr' hc1 hr' (by simp [Side.dx]) (by simp [Side.dy])
    have hsym := hd.sym _ _ .right a b ha hb hnb
    refine ⟨a, b, ?_, ?_, ?_⟩
    · rw [cellAt_nat hd.shape hc' hr', ha]
    · have := cellAt_nat hd.shape hc1 hr'
      rw [← hb, ← this]
      push_cast
      rfl
    · simp only [Cell.wall, Side.opp] at hsym
      rw [hsym]
  · intro h1
    have hr1 : r + 1 < rows := by omega
    obtain ⟨b, hb⟩ := hd.shape.get_of_lt (idx_lt hc' hr1)
    have hnb : nb cols (cols * rows) (c + cols * r) .bottom = some (c + cols * (r + 1)) :=
      nb_of_coord_nat hc' hr' hc' hr1 (by simp [Side.dx]) (by simp [Side.dy])
    have hsym := hd.sym _ _ .bottom a b ha hb hnb
    refine ⟨a, b, ?_, ?_, ?_⟩
    · rw [cellAt_nat hd.shape hc' hr', ha]
    · have := cellAt_nat hd.shape hc' hr1
      rw [← hb, ← this]
      push_cast
      rfl
    · simp only [Cell.wall, Side.opp] at hsym
      rw [hsym]

/-- C1 on a 2 by 2 grid, with `Math.random()` always `0` and 8 loop iterations. -/
theorem generateMaze_wall_symmetry_witness :
    (1 ≤ 2 ∧ 1 ≤ 2 ∧ 2 * 2 * 2 ≤ 8) ∧
    ∃ maze, generateMaze 2 2 zeroDraws 8 = some maze ∧ WallSymmetry 2 2 maze :=
  ⟨by decide, generateMaze_wall_symmetry 2 2 zeroDraws 8 (by decide) (by decide) (by decide)⟩

/-- An open step between cell indices is a crossing between the cells' coordinates. -/
theorem crossing_of_openStep {cols rows : Nat} {maze : List Cell} (hd : MazeDone cols rows maze)
    {i j : Nat} (h : OpenStep cols rows maze i j) :
    Crossing cols rows maze ⟨((i % cols : Nat) : Int), ((i / cols : Nat) : Int)⟩
      ⟨((j % cols : Nat) : Int), ((j / cols : Nat) : Int)⟩ := by
  obtain ⟨k, a, ha, hij, hw⟩ := h
  have hi := hd.shape.lt_of_get ha
  have hj := nb_lt hi hij
  obtain ⟨b, hb⟩ := hd.shape.get_of_lt hj
  obtain ⟨e1, e2⟩ := nb_coord hi hij
  refine ⟨k, a, b, ?_, ?_, e1, e2, hw, ?_⟩
  · rw [cellAt_idx hd.shape hi, ha]
  · rw [cellAt_idx hd.shape hj, hb]
  · rw [← hd.sym i j k a b ha hb hij, hw]

/-- C2. For `cols ≥ 1`, `rows ≥ 1` and any values of `Math.random()`, in the grid that
`generateMaze` returns every cell `(c, r)` is reachable from cell `(0, 0)` by a path whose
steps go between adjacent cells across a removed wall. -/
theorem generateMaze_connected (cols rows : Nat) (rnd : Nat → RandomDraw) (fuel : Nat)
    (hc : 1 ≤ cols) (hr : 1 ≤ rows) (hfuel : 2 * cols * rows ≤ fuel) :
    ∃ maze, generateMaze cols rows rnd fuel = some maze ∧
      ∀ c r : Int, 0 ≤ c → c < cols → 0 ≤ r → r < rows →
        Relation.ReflTransGen (Crossing cols rows maze) ⟨0, 0⟩ ⟨c, r⟩ := by
  obtain ⟨maze, hgen, hd⟩ := generateMaze_done rnd hc hr hfuel
  refine ⟨maze, hgen, ?_⟩
  intro c r hc0 hcl hr0 hrl
  obtain ⟨c, rfl⟩ := Int.eq_ofNat_of_zero_le hc0
  obtain ⟨r, rfl⟩ := Int.eq_ofNat_of_zero_le hr0
  have hc' : c < cols := by omega
  have hr' : r < rows := by omega
  have hreach := hd.conn (c + cols * r) (idx_lt hc' hr')
  have hlift := Relation.ReflTransGen.lift
    (fun i : Nat => (⟨((i % cols : Nat) : Int), ((i / cols : Nat) : Int)⟩ : Pos))
    (fun i j hij => crossing_of_openStep hd hij) hreach
  simp only [(decomp_unique hc').1, (decomp_unique hc').2, Nat.zero_mod, Nat.zero_div] at hlift
  exact hlift

/-- C2 on a 3 by 2 grid, with `Math.random()` always `0` and 12 loop iterations. -/
theorem generateMaze_connected_witness :
    (1 ≤ 3 ∧ 1 ≤ 2 ∧ 2 * 3 * 2 ≤ 12) ∧
    ∃ maze, generateMaze 3 2 zeroDraws 12 = some maze ∧
      ∀ c r : Int, 0 ≤ c → c < ((3 : Nat) : Int) → 0 ≤ r → r < ((2 : Nat) : Int) →
        Relation.ReflTransGen (Crossing 3 2 maze) ⟨0, 0⟩ ⟨c, r⟩ :=
  ⟨by decide, generateMaze_connected 3 2 zeroDraws 12 (by decide) (by decide) (by decide)⟩

/-- C4. For `cols ≥ 1`, `rows ≥ 1` and any values of `Math.random()`, the loop of
`generateMaze` reaches its `break` without a `TypeError` (within `2 * cols * rows`
iterations), and the grid it leaves has `cols * rows` cells, all of them with
`visited = true`. -/
theorem generateMaze_terminates_all_visited (cols rows : Nat) (rnd : Nat → RandomDraw)
    (fuel : Nat) (hc : 1 ≤ cols) (hr : 1 ≤ rows) (hfuel : 2 * cols * rows ≤ fuel) :
    ∃ maze, generateMaze cols rows rnd fuel = some maze ∧ maze.length = cols * rows ∧
      ∀ a ∈ maze, a.visited = true := by
  obtain ⟨maze, hgen, hd⟩ := generateMaze_done rnd hc hr hfuel
  refine ⟨maze, hgen, hd.shape.len, ?_⟩
  intro a ha
  obtain ⟨i, hi⟩ := List.getElem?_of_mem ha
  exact hd.visited i a hi

/-- C4 on a 3 by 3 grid, with `Math.random()` always `0` and 18 loop iterations: the loop
visits eight cells and backtracks eight times before it stops. -/
theorem generateMaze_terminates_all_visited_witness :
    (1 ≤ 3 ∧ 1 ≤ 3 ∧ 2 * 3 * 3 ≤ 18) ∧
    ∃ maze, generateMaze 3 3 zeroDraws 18 = some maze ∧
      maze.length = 3 * 3 ∧ ∀ a ∈ maze, a.visited = true :=
  ⟨by decide,
    generateMaze_terminates_all_visited 3 3 zeroDraws 18 (by decide) (by decide) (by decide)⟩

theorem rightOpen_iff {cols rows : Nat} {maze : List Cell} (hd : MazeDone cols rows maze)
    {c r : Nat} (hc : c < cols) (hr : r < rows) :
    rightOpen cols rows maze c r = true ↔ c + cols * r ∈ idxSet maze fun a => !a.wall .right := by
  obtain ⟨a, ha⟩ := hd.shape.get_of_lt (idx_lt hc hr)
  rw [mem_idxSet]
  unfold rightOpen
  rw [cellAt_nat hd.shape hc hr, ha]
  by_cases hc1 : c + 1 < cols
  · obtain ⟨b, hb⟩ := hd.shape.get_of_lt (idx_lt hc1 hr)
    have hnb : nb cols (cols * rows) (c + cols * r) .right = some (c + 1 + cols * r) :=
      nb_of_coord_nat hc hr hc1 hr (by simp [Side.dx]) (by simp [Side.dy])
    have hsym := hd.sym _ _ .right a b ha hb hnb
    simp only [Cell.wall, Side.opp] at hsym
    have hcell : cellAt cols rows maze ((c : Int) + 1) (r : Int) = some b := by
      have := cellAt_nat hd.shape hc1 hr
      rw [← hb, ← this]
      push_cast
      rfl
    rw [hcell]
    simp only [Cell.wall, ← hsym, Bool.or_self]
    constructor
    · intro h; exact ⟨a, rfl, h⟩
    · rintro ⟨a', ha', h⟩; cases ha'; exact h
  · have hnone : cellAt cols rows maze ((c : Int) + 1) (r : Int) = none := by
      unfold cellAt
      rw [gridIndex_eq_none (by omega)]
    rw [hnone]
    simp only [Bool.false_eq_true, false_iff, not_exists, not_and]
    intro a' ha'
    cases ha'
    have hb := hd.border (c + cols * r) .right a ha (by
      simp only [nb]
      rw [(decomp_unique hc).1, if_neg hc1])
    rw [hb]
    simp

theorem bottomOpen_iff {cols rows : Nat} {maze : List Cell} (hd : MazeDone cols rows maze)
    {c r : Nat} (hc : c < cols) (hr : r < rows) :
    bottomOpen cols rows maze c r = true ↔
      c + cols * r ∈ idxSet maze fun a => !a.wall .bottom := by
  obtain ⟨a, ha⟩ := hd.shape.get_of_lt (idx_lt hc hr)
  rw [mem_idxSet]
  unfold bottomOpen
  rw [cellAt_nat hd.shape hc hr, ha]
  by_cases hr1 : r + 1 < rows
  · obtain ⟨b, hb⟩ := hd.shape.get_of_lt (idx_lt hc hr1)
    have hnb : nb cols (cols * rows) (c + cols * r) .bottom = some (c + cols * (r + 1)) :=
      nb_of_coord_nat hc hr hc hr1 (by simp [Side.dx]) (by simp [Side.dy])
    have hsym := hd.sym _ _ .bottom a b ha hb hnb
    simp only [Cell.wall, Side.opp] at hsym
    have hcell : cellAt cols rows maze (c : Int) ((r : Int) + 1) = some b := by
      have := cellAt_nat hd.shape hc hr1
      rw [← hb, ← this]
      push_cast
      rfl
    rw [hcell]
    simp only [Cell.wall, ← hsym, Bool.or_self]
    constructor
    · intro h; exact ⟨a, rfl, h⟩
    · rintro ⟨a', ha', h⟩; cases ha'; exact h
  · have hnone : cellAt cols rows maze (c : Int) ((r : Int) + 1) = none := by
      unfold cellAt
      rw [gridIndex_eq_none (by omega)]
    rw [hnone]
    simp only [Bool.false_eq_true, false_iff, not_exists, not_and]
    intro a' ha'
    cases ha'
    have hb := hd.border (c + cols * r) .bottom a ha (by
      simp only [nb]
      rw [if_neg]
      have := idx_lt hc hr
      have h2 : cols * rows ≤ cols * (r + 1) := Nat.mul_le_mul_left _ (by omega)
      rw [Nat.mul_add] at h2
      omega)
    rw [hb]
    simp

/-- Counting cells by coordinates and by index gives the same number. -/
theorem card_grid {cols rows : Nat} (f : Nat → Nat → Bool) (S : Finset Nat)
    (hS : ∀ i ∈ S, i < cols * rows)
    (h : ∀ c r, c < cols → r < rows → (f c r = true ↔ c + cols * r ∈ S)) :
    ((Finset.range cols ×ˢ Finset.range rows).filter fun p => f p.1 p.2 = true).card = S.card := by
  apply Finset.card_bij (fun p _ => p.1 + cols * p.2)
  · intro p hp
    simp only [Finset.mem_filter, Finset.mem_product, Finset.mem_range] at hp
    exact (h p.1 p.2 hp.1.1 hp.1.2).1 hp.2
  · intro p hp q hq heq
    simp only [Finset.mem_filter, Finset.mem_product, Finset.mem_range] at hp hq
    have hp1 := decomp_unique (r := p.2) hp.1.1
    have hq1 := decomp_unique (r := q.2) hq.1.1
    simp only at heq
    rw [heq] at hp1
    exact Prod.ext (hp1.1.symm.trans hq1.1) (hp1.2.symm.trans hq1.2)
  · intro i hi
    have hlt := hS i hi
    obtain ⟨h1, h2, h3, _⟩ := div_facts hlt
    refine ⟨(i % cols, i / cols), ?_, h3⟩
    simp only [Finset.mem_filter, Finset.mem_product, Finset.mem_range]
    refine ⟨⟨h1, h2⟩, (h _ _ h1 h2).2 ?_⟩
    rw [h3]
    exact hi

theorem openPairs_eq {cols rows : Nat} {maze : List Cell} (hd : MazeDone cols rows maze) :
    openPairs cols rows maze + 1 = cols * rows := by
  have hlt : ∀ (p : Cell → Bool), ∀ i ∈ idxSet maze p, i < cols * rows := by
    intro p i hi
    obtain ⟨a, ha, _⟩ := mem_idxSet.1 hi
    exact hd.shape.lt_of_get ha
  unfold openPairs
  rw [card_grid (rightOpen cols rows maze) _ (hlt _) (fun c r hc hr => rightOpen_iff hd hc hr),
    card_grid (bottomOpen cols rows maze) _ (hlt _) (fun c r hc hr => bottomOpen_iff hd hc hr)]
  exact hd.count

theorem openStep_of_passage {cols rows : Nat} {maze : List Cell} (hd : MazeDone cols rows maze)
    {p q : Fin cols × Fin rows} (h : Passage cols rows maze p q) :
    OpenStep cols rows maze ((p.1 : Nat) + cols * (p.2 : Nat)) ((q.1 : Nat) + cols * (q.2 : Nat)) := by
  obtain ⟨k, a, b, ha, hb, hx, hy, hw⟩ := h
  rw [cellAt_nat hd.shape p.1.isLt p.2.isLt] at ha
  rw [cellAt_nat hd.shape q.1.isLt q.2.isLt] at hb
  have hnb := nb_of_coord_nat p.1.isLt p.2.isLt q.1.isLt q.2.isLt hx hy
  refine ⟨k, a, ha, hnb, ?_⟩
  rcases hw with hw | hw
  · exact hw
  · rw [hd.sym _ _ k a b ha hb hnb, hw]

theorem mazeGraph_acyclic {cols rows : Nat} {maze : List Cell} (hd : MazeDone cols rows maze) :
    (mazeGraph cols rows maze).IsAcyclic := by
  have hinj : Function.Injective
      (fun p : Fin cols × Fin rows => (p.1 : Nat) + cols * (p.2 : Nat)) := by
    intro p q heq
    have hp1 := decomp_unique (r := (p.2 : Nat)) p.1.isLt
    have hq1 := decomp_unique (r := (q.2 : Nat)) q.1.isLt
    simp only at heq
    rw [heq] at hp1
    exact Prod.ext (Fin.ext (hp1.1.symm.trans hq1.1)) (Fin.ext (hp1.2.symm.trans hq1.2))
  let hom : mazeGraph cols rows maze →g cellGraph cols rows maze :=
    { toFun := fun p => (p.1 : Nat) + cols * (p.2 : Nat)
      map_rel' := by
        intro p q hadj
        unfold mazeGraph at hadj
        rw [SimpleGraph.fromRel_adj] at hadj
        rw [cellGraph_adj]
        refine ⟨fun e => hadj.1 (hinj e), ?_⟩
        rcases hadj.2 with h | h
        · exact Or.inl (openStep_of_passage hd h)
        · exact Or.inr (openStep_of_passage hd h) }
  intro v c hc
  exact hd.acyclic (c.map hom) ((SimpleGraph.Walk.map_isCycle_iff_of_injective hinj).2 hc)

/-- C3. For `cols ≥ 1`, `rows ≥ 1` and any values of `Math.random()`, in the grid that
`generateMaze` returns the number of adjacent cell pairs whose shared wall is open is
`cols * rows - 1`, and the open-wall graph contains no cycle. -/
theorem generateMaze_spanning_tree (cols rows : Nat) (rnd : Nat → RandomDraw) (fuel : Nat)
    (hc : 1 ≤ cols) (hr : 1 ≤ rows) (hfuel : 2 * cols * rows ≤ fuel) :
    ∃ maze, generateMaze cols rows rnd fuel = some maze ∧
      openPairs cols rows maze = cols * rows - 1 ∧ (mazeGraph cols rows maze).IsAcyclic := by
  obtain ⟨maze, hgen, hd⟩ := generateMaze_done rnd hc hr hfuel
  refine ⟨maze, hgen, ?_, mazeGraph_acyclic hd⟩
  have := openPairs_eq hd
  omega

/-- C3 on a 2 by 3 grid, with `Math.random()` always `0` and 12 loop iterations. -/
theorem generateMaze_spanning_tree_witness :
    (1 ≤ 2 ∧ 1 ≤ 3 ∧ 2 * 2 * 3 ≤ 12) ∧
    ∃ maze, generateMaze 2 3 zeroDraws 12 = some maze ∧
      openPairs 2 3 maze = 2 * 3 - 1 ∧ (mazeGraph 2 3 maze).IsAcyclic :=
  ⟨by decide, generateMaze_spanning_tree 2 3 zeroDraws 12 (by decide) (by decide) (by decide)⟩


/-! ## Moving the player -/

theorem canMove_side {g : GameState} {a : Cell}
    (h : cellAt g.cols g.rows g.maze g.player.col g.player.row = some a) (k : Side) :
    canMove g k.dx k.dy = some (!a.wall k) := by
  unfold cellAt at h
  unfold canMove
  cases hg : gridIndex g.cols g.rows g.maze g.player.col g.player.row with
  | none => rw [hg] at h; cases h
  | some i =>
    rw [hg] at h
    simp only at h
    cases k <;> simp [Side.dx, Side.dy, wallAbsent, h, Cell.wall]

theorem checkWin_player (now : Int) (w : World) :
    (checkWin now w).gameState.player = w.gameState.player ∧
    (checkWin now w).gameState.goal = w.gameState.goal ∧
    (checkWin now w).gameState.maze = w.gameState.maze ∧
    (checkWin now w).gameState.cols = w.gameState.cols ∧
    (checkWin now w).gameState.rows = w.gameState.rows := by
  unfold checkWin
  split <;> simp [levelComplete]

/-- C5. In a running session whose player is on a cell of the grid, for each of the four
unit directions (`right` is `(1, 0)`, `left` is `(-1, 0)`, `bottom` is `(0, 1)`, `top` is
`(0, -1)`): if the current cell's wall on that side is `true`, `movePlayer(dx, dy)` changes
nothing; if it is `false`, the player position becomes exactly `(col + dx, row + dy)`. -/
theorem movePlayer_unit_direction (now : Int) (w : World) (k : Side) (a : Cell)
    (hplay : w.gameState.isPlaying = true)
    (hcell : cellAt w.gameState.cols w.gameState.rows w.gameState.maze
      w.gameState.player.col w.gameState.player.row = some a) :
    (a.wall k = true → movePlayer now k.dx k.dy w = some w) ∧
    (a.wall k = false → ∃ w', movePlayer now k.dx k.dy w = some w' ∧
      w'.gameState.player
        = { col := w.gameState.player.col + k.dx, row := w.gameState.player.row + k.dy }) := by
  constructor
  · intro hw
    unfold movePlayer
    rw [if_neg (by simp [hplay]), canMove_side hcell k, hw]
    rfl
  · intro hw
    unfold movePlayer
    rw [if_neg (by simp [hplay]), canMove_side hcell k, hw]
    exact ⟨_, rfl, (checkWin_player now _).1⟩

/-- C5 on `twoCellSession`, for the direction `(1, 0)`. -/
theorem movePlayer_unit_direction_witness :
    (twoCellSession.gameState.isPlaying = true ∧
      cellAt twoCellSession.gameState.cols twoCellSession.gameState.rows
        twoCellSession.gameState.maze twoCellSession.gameState.player.col
        twoCellSession.gameState.player.row
        = some { Cell.new 0 0 with walls1 := false, visited := true }) ∧
    (({ Cell.new 0 0 with walls1 := false, visited := true } : Cell).wall .right = true →
      movePlayer 5000 Side.right.dx Side.right.dy twoCellSession = some twoCellSession) ∧
    (({ Cell.new 0 0 with walls1 := false, visited := true } : Cell).wall .right = false →
      ∃ w', movePlayer 5000 Side.right.dx Side.right.dy twoCellSession = some w' ∧
        w'.gameState.player
          = { col := twoCellSession.gameState.player.col + Side.right.dx,
              row := twoCellSession.gameState.player.row + Side.right.dy }) :=
  ⟨⟨by decide, by decide⟩,
    movePlayer_unit_direction 5000 twoCellSession .right
      { Cell.new 0 0 with walls1 := false, visited := true } (by decide) (by decide)⟩


/-- When the player is not on a cell of the grid, a direction with a component `1` or `-1`
makes `movePlayer` read `currentCell.walls` of `undefined`. -/
theorem canMove_off_grid {g : GameState} {dx dy : Int}
    (hcell : cellAt g.cols g.rows g.maze g.player.col g.player.row = none)
    (hdir : dx = 1 ∨ dx = -1 ∨ dy = 1 ∨ dy = -1) : canMove g dx dy = none := by
  have hw : ∀ sel : Cell → Bool,
      wallAbsent g.maze (gridIndex g.cols g.rows g.maze g.player.col g.player.row) sel
        = none := by
    intro sel
    unfold cellAt at hcell
    unfold wallAbsent
    cases hg : gridIndex g.cols g.rows g.maze g.player.col g.player.row with
    | none => rfl
    | some i =>
      rw [hg] at hcell
      simp only at hcell
      simp only [hcell]
  unfold canMove
  simp only [hw]
  by_cases h1 : dx = 1
  · simp [h1]
  · by_cases h2 : dx = -1
    · simp [h2]
    · by_cases h3 : dy = 1
      · simp [h1, h2, h3]
      · have h4 : dy = -1 := by
          rcases hdir with h | h | h | h
          · exact absurd h h1
          · exact absurd h h2
          · exact absurd h h3
          · exact h
        simp [h1, h2, h3, h4]

/-- C6, as the code behaves. `movePlayer` does not validate the direction. In every running
session: when neither `dx` nor `dy` is `1` or `-1` (such as `(0, 0)` or `(2, 0)`) it changes
nothing. Otherwise, when the player is not on a cell of the grid (which a diagonal move can
bring about) it raises a `TypeError` before anything is written; and when the player is on a
cell of the grid it tests one wall of that cell, `walls[1]` when `dx` is `1`, else `walls[3]`
when `dx` is `-1`, else `walls[2]` when `dy` is `1`, else `walls[0]`: when that wall is
`true` nothing changes, and when it is `false` the player moves by the full `(dx, dy)`,
diagonal or not. -/
theorem movePlayer_unvalidated_direction (now : Int) (dx dy : Int) (w : World) :
    (dx ≠ 1 → dx ≠ -1 → dy ≠ 1 → dy ≠ -1 → movePlayer now dx dy w = some w) ∧
    (w.gameState.isPlaying = true →
      cellAt w.gameState.cols w.gameState.rows w.gameState.maze
        w.gameState.player.col w.gameState.player.row = none →
      (dx = 1 ∨ dx = -1 ∨ dy = 1 ∨ dy = -1) →
      movePlayer now dx dy w = none) ∧
    (∀ a : Cell, w.gameState.isPlaying = true →
      cellAt w.gameState.cols w.gameState.rows w.gameState.maze
        w.gameState.player.col w.gameState.player.row = some a →
      (dx = 1 ∨ dx = -1 ∨ dy = 1 ∨ dy = -1) →
      ((if dx = 1 then a.walls1 else if dx = -1 then a.walls3
          else if dy = 1 then a.walls2 else a.walls0) = true →
        movePlayer now dx dy w = some w) ∧
      ((if dx = 1 then a.walls1 else if dx = -1 then a.walls3
          else if dy = 1 then a.walls2 else a.walls0) = false →
        ∃ w', movePlayer now dx dy w = some w' ∧
          w'.gameState.player
            = { col := w.gameState.player.col + dx, row := w.gameState.player.row + dy })) := by
  refine ⟨?_, ?_, ?_⟩
  · intro h1 h2 h3 h4
    unfold movePlayer canMove
    simp only [h1, h2, h3, h4, if_false]
    split <;> rfl
  · intro hplay hcell hdir
    unfold movePlayer
    rw [if_neg (by simp [hplay]), canMove_off_grid hcell hdir]
  · intro a hplay hcell hdir
    have hcan : canMove w.gameState dx dy
        = some (!(if dx = 1 then a.walls1 else if dx = -1 then a.walls3
            else if dy = 1 then a.walls2 else a.walls0)) := by
      unfold cellAt at hcell
      unfold canMove
      cases hg : gridIndex w.gameState.cols w.gameState.rows w.gameState.maze
          w.gameState.player.col w.gameState.player.row with
      | none => rw [hg] at hcell; cases hcell
      | some i =>
        rw [hg] at hcell
        simp only at hcell
        by_cases h1 : dx = 1
        · simp [h1, wallAbsent, hcell]
        · by_cases h2 : dx = -1
          · simp [h1, h2, wallAbsent, hcell]
          · by_cases h3 : dy = 1
            · simp [h1, h2, h3, wallAbsent, hcell]
            · have h4 : dy = -1 := by
                rcases hdir with h | h | h | h
                · exact absurd h h1
                · exact absurd h h2
                · exact absurd h h3
                · exact h
              simp [h1, h2, h3, h4, wallAbsent, hcell]
    constructor
    · intro hw
      unfold movePlayer
      rw [if_neg (by simp [hplay]), hcan, hw]
      rfl
    · intro hw
      unfold movePlayer
      rw [if_neg (by simp [hplay]), hcan, hw]
      exact ⟨_, rfl, (checkWin_player now _).1⟩

set_option maxRecDepth 100000 in
/-- The off-grid case occurs. After `initLevel` on the initial globals with `Math.random()`
always `0`, `movePlayer(1, -1)` moves the player to `(1, -1)`, outside the grid, with the
session still running; the next call `movePlayer(1, 0)` raises a `TypeError`. -/
theorem movePlayer_off_grid_raises :
    (initLevel 0 zeroDraws initialWorld).map
        (fun w => (movePlayer 0 1 (-1) w).map
          fun w1 => (w1.gameState.isPlaying, w1.gameState.player,
            (movePlayer 0 1 0 w1).isSome))
      = some (some (true, { col := 1, row := -1 }, false)) := by
  decide

set_option maxRecDepth 100000 in
/-- C6 fails as stated. After `initLevel` on the initial globals with `Math.random()` always
`0` (a 9 by 9 grid whose first removed wall is the right wall of cell `(0, 0)`), the session
is running with the player at `(0, 0)`, and `movePlayer(1, 1)`, a diagonal, is not rejected:
it moves the player to `(1, 1)`. -/
theorem movePlayer_diagonal_moves :
    (1, 1) ∉ unitDirections ∧
    (initLevel 0 zeroDraws initialWorld).map
        (fun w => (w.gameState.isPlaying, w.gameState.player,
          (movePlayer 0 1 1 w).map fun w' => w'.gameState.player))
      = some (true, { col := 0, row := 0 }, some { col := 1, row := 1 }) := by
  decide

/-- C7. `levelComplete` adds `levelScore` to the score, which is exactly
`100 * level + max(0, 300 - 5 * elapsed)` with `elapsed = floor((now - startTime) / 1000)`;
the amount added is at least `100 * level`; level 3 completed after 10 whole seconds
(`10000 + ms` milliseconds, `ms < 1000`) adds 550 and level 1 completed after 100 whole
seconds adds 100. -/
theorem levelComplete_score (now : Int) (w : World) (t : Int) (ms : Fin 1000) :
    (levelComplete now w).gameState.score
      = w.gameState.score + levelScore w.gameState.level w.gameState.startTime now ∧
    levelScore w.gameState.level w.gameState.startTime now
      = 100 * (w.gameState.level : Int)
          + max 0 (300 - 5 * ((now - w.gameState.startTime) / 1000)) ∧
    w.gameState.score + 100 * (w.gameState.level : Int) ≤ (levelComplete now w).gameState.score ∧
    levelScore 3 t (t + 10000 + ((ms : Nat) : Int)) = 550 ∧
    levelScore 1 t (t + 100000 + ((ms : Nat) : Int)) = 100 := by
  have hms := ms.isLt
  refine ⟨rfl, ?_, ?_, ?_, ?_⟩
  · simp only [levelScore]
    rw [Int.mul_comm ((now - w.gameState.startTime) / 1000) 5]
  · simp only [levelComplete, levelScore]
    have := le_max_left (0 : Int) (300 - (now - w.gameState.startTime) / 1000 * 5)
    omega
  · simp only [levelScore]
    have : (t + 10000 + ((ms : Nat) : Int) - t) / 1000 = 10 := by omega
    rw [this]
    rfl
  · simp only [levelScore]
    have : (t + 100000 + ((ms : Nat) : Int) - t) / 1000 = 100 := by omega
    rw [this]
    rfl

theorem Progress.get_set (p : Progress) (d d' : Difficulty) (v : Nat) :
    (p.set d v).get d' = if d' = d then v else p.get d' := by
  cases d <;> cases d' <;> rfl

/-- C8. With `L = gameState.level`, `d = gameState.difficulty` and `p = progress[d]` before
`levelComplete`: if `L = p` and `p < totalLevels` then `progress[d]` becomes `p + 1`; if
`L < p`, or `L = p = totalLevels`, then `progress[d]` is unchanged; the entries of the other
difficulties are unchanged; `progress[d]` never decreases, and stays at most `totalLevels`
when it was at most `totalLevels`. -/
theorem levelComplete_progress (now : Int) (w : World) :
    (w.gameState.level = w.progress.get w.gameState.difficulty ∧
        w.progress.get w.gameState.difficulty < totalLevels →
      (levelComplete now w).progress.get w.gameState.difficulty
        = w.progress.get w.gameState.difficulty + 1) ∧
    (w.gameState.level < w.progress.get w.gameState.difficulty →
      (levelComplete now w).progress = w.progress) ∧
    (w.gameState.level = w.progress.get w.gameState.difficulty ∧
        w.progress.get w.gameState.difficulty = totalLevels →
      (levelComplete now w).progress = w.progress) ∧
    (∀ d, d ≠ w.gameState.difficulty →
      (levelComplete now w).progress.get d = w.progress.get d) ∧
    w.progress.get w.gameState.difficulty
      ≤ (levelComplete now w).progress.get w.gameState.difficulty ∧
    (w.progress.get w.gameState.difficulty ≤ totalLevels →
      (levelComplete now w).progress.get w.gameState.difficulty ≤ totalLevels) := by
  refine ⟨?_, ?_, ?_, ?_, ?_, ?_⟩
  · intro h
    simp only [levelComplete]
    rw [if_pos h, Progress.get_set, if_pos rfl]
  · intro h
    simp only [levelComplete]
    rw [if_neg (by omega)]
  · intro h
    simp only [levelComplete]
    rw [if_neg (by omega)]
  · intro d hd
    simp only [levelComplete]
    split
    · rw [Progress.get_set, if_neg hd]
    · rfl
  · simp only [levelComplete]
    split
    · rw [Progress.get_set, if_pos rfl]; omega
    · exact Nat.le_refl _
  · intro hle
    simp only [levelComplete]
    split
    · rename_i h
      rw [Progress.get_set, if_pos rfl]; omega
    · exact hle


theorem movePlayer_not_playing (now dx dy : Int) (w : World)
    (h : w.gameState.isPlaying = false) : movePlayer now dx dy w = some w := by
  unfold movePlayer
  rw [if_pos h]

theorem runMoves_not_playing (moves : List MoveCall) (w : World)
    (h : w.gameState.isPlaying = false) : runMoves moves w = some w := by
  induction moves with
  | nil => rfl
  | cons m ms ih =>
    unfold runMoves
    rw [movePlayer_not_playing m.now m.dx m.dy w h]
    exact ih

theorem Pos.eq_of_fields {p q : Pos} (hc : p.col = q.col) (hr : p.row = q.row) : p = q := by
  cases p
  cases q
  simp only at hc hr
  rw [hc, hr]

theorem canMove_true_dir {g : GameState} {dx dy : Int} (h : canMove g dx dy = some true) :
    dx = 1 ∨ dx = -1 ∨ dy = 1 ∨ dy = -1 := by
  by_contra hn
  simp only [not_or] at hn
  unfold canMove at h
  simp only [hn.1, hn.2.1, hn.2.2.1, hn.2.2.2, if_false] at h
  cases h

/-- What one call of `movePlayer` can do: nothing; or, in a running session, move the player
to a cell that is not the goal and touch nothing else that the score depends on; or move the
player onto the goal, add the level score and end the session. -/
theorem movePlayer_outcome {now dx dy : Int} {w w1 : World}
    (h : movePlayer now dx dy w = some w1) :
    w1 = w ∨
    (w.gameState.isPlaying = true ∧ w1.gameState.player ≠ w.gameState.player ∧
      ((w1.gameState.player ≠ w1.gameState.goal ∧ w1.gameState.score = w.gameState.score ∧
          w1.gameState.isPlaying = true ∧ w1.progress = w.progress ∧
          w1.gameState.level = w.gameState.level ∧
          w1.gameState.startTime = w.gameState.startTime)
        ∨ (w1.gameState.player = w1.gameState.goal ∧ w1.gameState.isPlaying = false ∧
          w1.gameState.score
            = w.gameState.score + levelScore w.gameState.level w.gameState.startTime now))) := by
  unfold movePlayer at h
  by_cases hplay : w.gameState.isPlaying = false
  · rw [if_pos hplay] at h
    cases h
    exact Or.inl rfl
  · rw [if_neg hplay] at h
    have hplay' : w.gameState.isPlaying = true := by simpa using hplay
    cases hcan : canMove w.gameState dx dy with
    | none => rw [hcan] at h; cases h
    | some b =>
      rw [hcan] at h
      cases b with
      | false => cases h; exact Or.inl rfl
      | true =>
        simp only [Option.some.injEq] at h
        have hdir := canMove_true_dir hcan
        obtain ⟨hp, hg, _⟩ := checkWin_player now
          { w with gameState :=
              { w.gameState with
                player :=
                  { col := w.gameState.player.col + dx,
                    row := w.gameState.player.row + dy } } }
        rw [h] at hp hg
        simp only at hp hg
        right
        refine ⟨hplay', ?_, ?_⟩
        · intro heq
          rw [hp] at heq
          have hc := congrArg Pos.col heq
          have hr := congrArg Pos.row heq
          simp only at hc hr
          omega
        · by_cases hwin : w.gameState.player.col + dx = w.gameState.goal.col
              ∧ w.gameState.player.row + dy = w.gameState.goal.row
          · right
            refine ⟨?_, ?_, ?_⟩
            · rw [hp, hg]
              exact Pos.eq_of_fields hwin.1 hwin.2
            · rw [← h]
              unfold checkWin
              simp only [hwin, and_self, if_true]
              rfl
            · rw [← h]
              unfold checkWin
              simp only [hwin, and_self, if_true]
              rfl
          · left
            have hw1 : w1 = { w with gameState :=
                { w.gameState with
                  player :=
                    { col := w.gameState.player.col + dx,
                      row := w.gameState.player.row + dy } } } := by
              rw [← h]
              unfold checkWin
              simp only
              rw [if_neg hwin]
            refine ⟨?_, ?_, ?_, ?_, ?_, ?_⟩
            · rw [hp, hg]
              intro heq
              apply hwin
              have hc := congrArg Pos.col heq
              have hr := congrArg Pos.row heq
              simp only at hc hr
              exact ⟨hc, hr⟩
            · rw [hw1]
            · rw [hw1]; exact hplay'
            · rw [hw1]
            · rw [hw1]
            · rw [hw1]

/-- Over a whole sequence of `movePlayer` calls the level score is added at most once. -/
theorem runMoves_score (moves : List MoveCall) :
    ∀ (w w' : World), runMoves moves w = some w' →
      (w'.gameState.score = w.gameState.score ∧ w'.progress = w.progress) ∨
      (w.gameState.isPlaying = true ∧ w'.gameState.isPlaying = false ∧
        ∃ m ∈ moves, w'.gameState.score
          = w.gameState.score + levelScore w.gameState.level w.gameState.startTime m.now) := by
  induction moves with
  | nil =>
    intro w w' h
    unfold runMoves at h
    cases h
    exact Or.inl ⟨rfl, rfl⟩
  | cons m ms ih =>
    intro w w' h
    unfold runMoves at h
    cases hm : movePlayer m.now m.dx m.dy w with
    | none => rw [hm] at h; cases h
    | some w1 =>
      rw [hm] at h
      simp only at h
      rcases movePlayer_outcome hm with rfl | ⟨hplay, _, hrest⟩
      · rcases ih _ _ h with hsame | ⟨h1, h2, m', hm', hs⟩
        · exact Or.inl hsame
        · exact Or.inr ⟨h1, h2, m', List.mem_cons_of_mem _ hm', hs⟩
      · rcases hrest with ⟨_, hs, hp1, hpr, hl, hst⟩ | ⟨_, hstop, hs⟩
        · rcases ih _ _ h with ⟨hsame, hprog⟩ | ⟨_, h2, m', hm', hs'⟩
          · exact Or.inl ⟨hsame.trans hs, hprog.trans hpr⟩
          · refine Or.inr ⟨hplay, h2, m', List.mem_cons_of_mem _ hm', ?_⟩
            rw [hs', hs, hl, hst]
        · rw [runMoves_not_playing ms w1 hstop] at h
          cases h
          exact Or.inr ⟨hplay, hstop, m, List.mem_cons_self _ _, hs⟩

/-- C10. `movePlayer` has effect only while the session is running. When `isPlaying` is
`false`, `movePlayer(dx, dy)` changes nothing. When a call of `movePlayer` in a running
session moves the player and the new position is the goal, `levelComplete` has run: the
score has grown by the level score, `isPlaying` is `false`, and every later sequence of
`movePlayer` calls leaves the whole state, the score included, as it is. Every other call of
`movePlayer` (blocked, or a move to a cell that is not the goal) leaves the score, the
running flag and the progression as they are. So over any sequence of `movePlayer` calls
on a session the score is either unchanged or has grown by the level score exactly once,
at the call that ended the session. -/
theorem movePlayer_only_while_running (now dx dy : Int) (w : World) (later : List MoveCall) :
    (w.gameState.isPlaying = false → movePlayer now dx dy w = some w) ∧
    (∀ w', w.gameState.isPlaying = true → movePlayer now dx dy w = some w' →
      w'.gameState.player ≠ w.gameState.player →
      w'.gameState.player = w'.gameState.goal →
      w'.gameState.isPlaying = false ∧
      w'.gameState.score
        = w.gameState.score + levelScore w.gameState.level w.gameState.startTime now ∧
      runMoves later w' = some w') ∧
    (∀ w', movePlayer now dx dy w = some w' →
      ¬ (w.gameState.isPlaying = true ∧ w'.gameState.player ≠ w.gameState.player ∧
          w'.gameState.player = w'.gameState.goal) →
      w'.gameState.score = w.gameState.score ∧
      w'.gameState.isPlaying = w.gameState.isPlaying ∧ w'.progress = w.progress) ∧
    (∀ (moves : List MoveCall) (w' : World), runMoves moves w = some w' →
      (w'.gameState.score = w.gameState.score ∧ w'.progress = w.progress) ∨
      (w.gameState.isPlaying = true ∧ w'.gameState.isPlaying = false ∧
        ∃ m ∈ moves, w'.gameState.score
          = w.gameState.score + levelScore w.gameState.level w.gameState.startTime m.now)) := by
  refine ⟨movePlayer_not_playing now dx dy w, ?_, ?_, fun moves w' h => runMoves_score moves w w' h⟩
  · intro w' hplay hmove hne hgoal
    rcases movePlayer_outcome hmove with rfl | ⟨_, _, ⟨hng, _⟩ | ⟨_, hstop, hs⟩⟩
    · exact absurd rfl hne
    · exact absurd hgoal hng
    · exact ⟨hstop, hs, runMoves_not_playing later w' hstop⟩
  · intro w' hmove hnot
    rcases movePlayer_outcome hmove with rfl | ⟨hplay, hne, ⟨_, hs, hp1, hpr, _, _⟩ | ⟨hg, _, _⟩⟩
    · exact ⟨rfl, rfl, rfl⟩
    · exact ⟨hs, by rw [hp1, hplay], hpr⟩
    · exact absurd ⟨hplay, hne, hg⟩ hnot

/-- C10 on a concrete session: in `twoCellSession` the move to the right reaches the goal;
the level score (100 for the level, 275 for five seconds) is added once, and later calls
change nothing. -/
theorem movePlayer_only_while_running_witness :
    movePlayer 5000 1 0 twoCellSession
      = some { twoCellSession with
          gameState := { twoCellSession.gameState with
            isPlaying := false, score := 375, player := { col := 1, row := 0 } },
          progress := { easy := 2, medium := 1, hard := 1 } } ∧
    runMoves [⟨6000, -1, 0⟩, ⟨7000, 1, 0⟩]
        { twoCellSession with
          gameState := { twoCellSession.gameState with
            isPlaying := false, score := 375, player := { col := 1, row := 0 } },
          progress := { easy := 2, medium := 1, hard := 1 } }
      = some { twoCellSession with
          gameState := { twoCellSession.gameState with
            isPlaying := false, score := 375, player := { col := 1, row := 0 } },
          progress := { easy := 2, medium := 1, hard := 1 } } :=
  ⟨by decide,
    ((movePlayer_only_while_running 5000 1 0 twoCellSession
        [⟨6000, -1, 0⟩, ⟨7000, 1, 0⟩]).2.1 _
      (by decide) (by decide) (by decide) (by decide)).2.2⟩

set_option maxRecDepth 100000 in
/-- A legal move that does not reach the goal, on a real session: after `initLevel` on the
initial globals with `Math.random()` always `0`, two legal moves to the right take the
player to `(2, 0)` with the score still `0` and the session still running. -/
theorem movePlayer_legal_move_keeps_score :
    ((initLevel 0 zeroDraws initialWorld).bind
        (runMoves [⟨1000, 1, 0⟩, ⟨2000, 1, 0⟩])).map
        (fun w => (w.gameState.player, w.gameState.score, w.gameState.isPlaying, w.progress))
      = some ({ col := 2, row := 0 }, 0, true, { easy := 1, medium := 1, hard := 1 }) := by
  decide

/-! ## The player stays on the grid -/

theorem side_of_unit {dx dy : Int} (h : (dx, dy) ∈ unitDirections) :
    ∃ k : Side, dx = k.dx ∧ dy = k.dy := by
  simp only [unitDirections, List.mem_cons, Prod.mk.injEq, List.mem_singleton,
    List.not_mem_nil, or_false] at h
  rcases h with ⟨rfl, rfl⟩ | ⟨rfl, rfl⟩ | ⟨rfl, rfl⟩ | ⟨rfl, rfl⟩
  · exact ⟨.right, rfl, rfl⟩
  · exact ⟨.left, rfl, rfl⟩
  · exact ⟨.bottom, rfl, rfl⟩
  · exact ⟨.top, rfl, rfl⟩

theorem CONFIG_pos (d : Difficulty) (level : Nat) :
    1 ≤ (CONFIG d).baseCols + level * (CONFIG d).growth ∧
    1 ≤ (CONFIG d).baseRows + level * (CONFIG d).growth := by
  cases d <;> simp only [CONFIG] <;> omega

/-- The function `initLevel` returns and leaves a running session on a finished maze with
the player on cell `(0, 0)`. -/
theorem initLevel_inv (now : Int) (rnd : Nat → RandomDraw) (w : World) :
    ∃ w1, initLevel now rnd w = some w1 ∧ SessionInv w1 := by
  obtain ⟨hc, hr⟩ := CONFIG_pos w.gameState.difficulty w.gameState.level
  obtain ⟨maze, hgen, hd⟩ := generateMaze_done rnd hc hr (Nat.le_refl _)
  unfold initLevel
  simp only [hgen]
  refine ⟨_, rfl, ?_⟩
  exact
    { maze := hd
      col_nonneg := Int.le_refl _
      col_lt := by simp only; omega
      row_nonneg := Int.le_refl _
      row_lt := by simp only; omega }

theorem SessionInv.cell {w : World} (h : SessionInv w) :
    ∃ (c r : Nat) (a : Cell), w.gameState.player.col = (c : Int) ∧
      w.gameState.player.row = (r : Int) ∧ c < w.gameState.cols ∧ r < w.gameState.rows ∧
      w.gameState.maze[c + w.gameState.cols * r]? = some a ∧
      cellAt w.gameState.cols w.gameState.rows w.gameState.maze
        w.gameState.player.col w.gameState.player.row = some a := by
  obtain ⟨c, hc⟩ := Int.eq_ofNat_of_zero_le h.col_nonneg
  obtain ⟨r, hr⟩ := Int.eq_ofNat_of_zero_le h.row_nonneg
  have hc' : c < w.gameState.cols := by have := h.col_lt; omega
  have hr' : r < w.gameState.rows := by have := h.row_lt; omega
  obtain ⟨a, ha⟩ := h.maze.shape.get_of_lt (idx_lt hc' hr')
  refine ⟨c, r, a, hc, hr, hc', hr', ha, ?_⟩
  rw [hc, hr, cellAt_nat h.maze.shape hc' hr', ha]

/-- A `movePlayer` call with a unit direction never raises and keeps the player on the
grid. -/
theorem movePlayer_inv (now : Int) (k : Side) {w : World} (h : SessionInv w) :
    ∃ w', movePlayer now k.dx k.dy w = some w' ∧ SessionInv w' := by
  obtain ⟨c, r, a, hc, hr, hc', hr', ha, hcell⟩ := h.cell
  unfold movePlayer
  by_cases hplay : w.gameState.isPlaying = false
  · rw [if_pos hplay]
    exact ⟨w, rfl, h⟩
  · rw [if_neg hplay, canMove_side hcell k]
    cases hw : a.wall k with
    | true => exact ⟨w, rfl, h⟩
    | false =>
      refine ⟨_, rfl, ?_⟩
      have hi := idx_lt hc' hr'
      cases hnb : nb w.gameState.cols (w.gameState.cols * w.gameState.rows)
          (c + w.gameState.cols * r) k with
      | none =>
        rw [h.maze.border _ k a ha hnb] at hw
        cases hw
      | some j =>
        obtain ⟨e1, e2⟩ := nb_coord hi hnb
        rw [(decomp_unique hc').1] at e1
        rw [(decomp_unique hc').2] at e2
        obtain ⟨j1, j2, _⟩ := div_facts (nb_lt hi hnb)
        obtain ⟨hp, _, hm, hcs, hrs⟩ := checkWin_player now
          { w with gameState :=
              { w.gameState with
                player :=
                  { col := w.gameState.player.col + k.dx,
                    row := w.gameState.player.row + k.dy } } }
        simp only [Bool.not_false]
        refine
          { maze := by rw [hm, hcs, hrs]; exact h.maze
            col_nonneg := ?_
            col_lt := ?_
            row_nonneg := ?_
            row_lt := ?_ }
        · rw [hp]; simp only; rw [hc, ← e1]; exact Int.ofNat_nonneg _
        · rw [hp, hcs]; simp only; rw [hc, ← e1]; exact_mod_cast j1
        · rw [hp]; simp only; rw [hr, ← e2]; exact Int.ofNat_nonneg _
        · rw [hp, hrs]; simp only; rw [hr, ← e2]; exact_mod_cast j2

theorem runMoves_inv (moves : List MoveCall) (hunit : ∀ m ∈ moves, (m.dx, m.dy) ∈ unitDirections) :
    ∀ {w : World}, SessionInv w → ∃ w', runMoves moves w = some w' ∧ SessionInv w' := by
  induction moves with
  | nil => intro w h; exact ⟨w, rfl, h⟩
  | cons m ms ih =>
    intro w h
    obtain ⟨k, hx, hy⟩ := side_of_unit (hunit m (List.mem_cons_self _ _))
    obtain ⟨w1, h1, hinv1⟩ := movePlayer_inv m.now k h
    unfold runMoves
    rw [hx, hy, h1]
    exact ih (fun m' hm' => hunit m' (List.mem_cons_of_mem _ hm')) hinv1

/-- The walls on the outer border of a finished maze are all present. -/
theorem MazeDone.outer_walls {cols rows : Nat} {maze : List Cell} (hd : MazeDone cols rows maze)
    {c r : Int} {a : Cell} (h : cellAt cols rows maze c r = some a) :
    (c = 0 → a.walls3 = true) ∧ (c = (cols : Int) - 1 → a.walls1 = true) ∧
    (r = 0 → a.walls0 = true) ∧ (r = (rows : Int) - 1 → a.walls2 = true) := by
  obtain ⟨hc0, hcl, hr0, hrl⟩ := cellAt_some_bounds h
  obtain ⟨c, rfl⟩ := Int.eq_ofNat_of_zero_le hc0
  obtain ⟨r, rfl⟩ := Int.eq_ofNat_of_zero_le hr0
  have hc' : c < cols := by omega
  have hr' : r < rows := by omega
  rw [cellAt_nat hd.shape hc' hr'] at h
  have hi := idx_lt hc' hr'
  have hb : ∀ k, (match k with
      | Side.top => if 1 ≤ r then some (c + cols * (r - 1)) else none
      | Side.right => if c + 1 < cols then some (c + 1 + cols * r) else none
      | Side.bottom => if r + 1 < rows then some (c + cols * (r + 1)) else none
      | Side.left => if 1 ≤ c then some (c - 1 + cols * r) else none) = none →
      a.wall k = true := by
    intro k hk
    apply hd.border (c + cols * r) k a h
    rw [nb_eq hi, (decomp_unique hc').1, (decomp_unique hc').2]
    exact hk
  refine ⟨fun e => ?_, fun e => ?_, fun e => ?_, fun e => ?_⟩
  · exact hb .left (by simp only; rw [if_neg (by omega)])
  · exact hb .right (by simp only; rw [if_neg (by omega)])
  · exact hb .top (by simp only; rw [if_neg (by omega)])
  · exact hb .bottom (by simp only; rw [if_neg (by omega)])

/-- C9. After `initLevel` (any difficulty, any level, any values of `Math.random()`) and any
sequence of `movePlayer` calls with the four unit directions, no call raises, the player
position satisfies `0 ≤ col ≤ cols - 1` and `0 ≤ row ≤ rows - 1`, the lookup
`gridIndex(player.col, player.row)` is not `undefined`, and every wall on the outer border of
the grid is present. -/
theorem player_stays_in_bounds (now : Int) (rnd : Nat → RandomDraw) (w : World)
    (moves : List MoveCall) (hunit : ∀ m ∈ moves, (m.dx, m.dy) ∈ unitDirections) :
    ∃ w1, initLevel now rnd w = some w1 ∧ ∃ w2, runMoves moves w1 = some w2 ∧
      0 ≤ w2.gameState.player.col ∧ w2.gameState.player.col ≤ (w2.gameState.cols : Int) - 1 ∧
      0 ≤ w2.gameState.player.row ∧ w2.gameState.player.row ≤ (w2.gameState.rows : Int) - 1 ∧
      (gridIndex w2.gameState.cols w2.gameState.rows w2.gameState.maze
        w2.gameState.player.col w2.gameState.player.row).isSome = true ∧
      ∀ (c r : Int) (a : Cell),
        cellAt w2.gameState.cols w2.gameState.rows w2.gameState.maze c r = some a →
        (c = 0 → a.walls3 = true) ∧ (c = (w2.gameState.cols : Int) - 1 → a.walls1 = true) ∧
        (r = 0 → a.walls0 = true) ∧ (r = (w2.gameState.rows : Int) - 1 → a.walls2 = true) := by
  obtain ⟨w1, h1, hinv1⟩ := initLevel_inv now rnd w
  obtain ⟨w2, h2, hinv2⟩ := runMoves_inv moves hunit hinv1
  refine ⟨w1, h1, w2, h2, hinv2.col_nonneg, ?_, hinv2.row_nonneg, ?_, ?_,
    fun c r a h => hinv2.maze.outer_walls h⟩
  · have := hinv2.col_lt; omega
  · have := hinv2.row_lt; omega
  · obtain ⟨c, r, a, hc, hr, hc', hr', _, _⟩ := hinv2.cell
    rw [hc, hr, gridIndex_eq_some hinv2.maze.shape hc' hr']
    rfl

/-- C9 on the initial globals, with `Math.random()` always `0` and three moves. -/
theorem player_stays_in_bounds_witness :
    (∀ m ∈ [(⟨1000, 1, 0⟩ : MoveCall), ⟨2000, 0, 1⟩, ⟨3000, -1, 0⟩],
      (m.dx, m.dy) ∈ unitDirections) ∧
    ∃ w1, initLevel 0 zeroDraws initialWorld = some w1 ∧
      ∃ w2, runMoves [⟨1000, 1, 0⟩, ⟨2000, 0, 1⟩, ⟨3000, -1, 0⟩] w1 = some w2 ∧
      0 ≤ w2.gameState.player.col ∧ w2.gameState.player.col ≤ (w2.gameState.cols : Int) - 1 ∧
      0 ≤ w2.gameState.player.row ∧ w2.gameState.player.row ≤ (w2.gameState.rows : Int) - 1 ∧
      (gridIndex w2.gameState.cols w2.gameState.rows w2.gameState.maze
        w2.gameState.player.col w2.gameState.player.row).isSome = true ∧
      ∀ (c r : Int) (a : Cell),
        cellAt w2.gameState.cols w2.gameState.rows w2.gameState.maze c r = some a →
        (c = 0 → a.walls3 = true) ∧ (c = (w2.gameState.cols : Int) - 1 → a.walls1 = true) ∧
        (r = 0 → a.walls0 = true) ∧ (r = (w2.gameState.rows : Int) - 1 → a.walls2 = true) :=
  ⟨by decide,
    player_stays_in_bounds 0 zeroDraws initialWorld
      [⟨1000, 1, 0⟩, ⟨2000, 0, 1⟩, ⟨3000, -1, 0⟩] (by decide)⟩

end MazeGame
